import Mathlib

/-!
Shallow embedding of the `bridge-encodings` crate.

Source files embedded: `src/oneline.rs`, `src/printall.rs`, `src/reader.rs`,
`src/lin/mod.rs`.  The card data model (`Suit`, `Rank`, `Card`, `Direction`,
`Hand`, `Deal`) lives in the external `bridge_types` crate, which is not part
of this repository; those definitions are modelled from the specification
(section 3 and 4.1) and are marked as such.

Representation choices:
 - Rust `&str` values are embedded as `List Char`.  All inputs relevant to the
   claims are ASCII, so Rust's byte slicing coincides with character slicing.
 - Multi-line text is embedded at line granularity (`List (List Char)`), with
   lines not carrying their trailing newline: every consumer in the source
   either splits with `str::lines()` or trims each line, so trailing newline
   characters are observationally irrelevant.
 - Error messages carried by `ParseError` variants are abstracted away; no
   claim inspects message text.
-/

deriving instance DecidableEq for Except

namespace BridgeEnc

/-- Modelled from the spec: error kinds of `src/error.rs` (`ParseError`);
the `String` payloads (human-readable messages) are abstracted away, and the
`Io` variant cannot arise in this pure embedding of a line source. -/
inductive PError where
  | pbn : PError
  | lin : PError
  | oneline : PError
deriving DecidableEq, Repr

/-- Modelled from the spec: `bridge_types::Suit`, one of 4 values. -/
inductive Suit where
  | Spades : Suit
  | Hearts : Suit
  | Diamonds : Suit
  | Clubs : Suit
deriving DecidableEq, Repr, Fintype

/-- Modelled from the spec: `Suit::ALL`. -/
def Suit.ALL : List Suit := [.Spades, .Hearts, .Diamonds, .Clubs]

/-- Modelled from the spec: `Suit::from_char` (`S`/`H`/`D`/`C`), partial. -/
def Suit.from_char (c : Char) : Option Suit :=
  match c with
  | 'S' => some .Spades
  | 'H' => some .Hearts
  | 'D' => some .Diamonds
  | 'C' => some .Clubs
  | _ => none

/-- Modelled from the spec: `bridge_types::Rank`, one of 13 values. -/
inductive Rank where
  | Two | Three | Four | Five | Six | Seven | Eight | Nine | Ten
  | Jack | Queen | King | Ace
deriving DecidableEq, Repr, Fintype

/-- Modelled from the spec: `Rank::ALL`. -/
def Rank.ALL : List Rank :=
  [.Two, .Three, .Four, .Five, .Six, .Seven, .Eight, .Nine, .Ten,
   .Jack, .Queen, .King, .Ace]

/-- Modelled from the spec: `Rank::to_char`, the single display character. -/
def Rank.to_char : Rank → Char
  | .Two => '2' | .Three => '3' | .Four => '4' | .Five => '5' | .Six => '6'
  | .Seven => '7' | .Eight => '8' | .Nine => '9' | .Ten => 'T'
  | .Jack => 'J' | .Queen => 'Q' | .King => 'K' | .Ace => 'A'

/-- Modelled from the spec: `Rank::from_char`, partial inverse of `to_char`. -/
def Rank.from_char (c : Char) : Option Rank :=
  match c with
  | '2' => some .Two | '3' => some .Three | '4' => some .Four
  | '5' => some .Five | '6' => some .Six | '7' => some .Seven
  | '8' => some .Eight | '9' => some .Nine | 'T' => some .Ten
  | 'J' => some .Jack | 'Q' => some .Queen | 'K' => some .King
  | 'A' => some .Ace | _ => none

/-- Numeric value used only to express the rank-descending sort order
(`b.rank.cmp(&a.rank)`). -/
def Rank.val : Rank → Nat
  | .Two => 2 | .Three => 3 | .Four => 4 | .Five => 5 | .Six => 6
  | .Seven => 7 | .Eight => 8 | .Nine => 9 | .Ten => 10
  | .Jack => 11 | .Queen => 12 | .King => 13 | .Ace => 14

/-- Modelled from the spec: `bridge_types::Card`, a (Suit, Rank) pair. -/
structure Card where
  suit : Suit
  rank : Rank
deriving DecidableEq, Repr, Fintype

/-- Modelled from the spec: `Card::new`. -/
def Card.new (s : Suit) (r : Rank) : Card := ⟨s, r⟩

/-- Modelled from the spec: `bridge_types::Direction`, 4 compass positions. -/
inductive Direction where
  | North : Direction
  | East : Direction
  | South : Direction
  | West : Direction
deriving DecidableEq, Repr, Fintype

/-- Modelled from the spec: `Direction::ALL`. -/
def Direction.ALL : List Direction := [.North, .East, .South, .West]

/-- Modelled from the spec: `bridge_types::Hand`, the cards held by one
direction.  An insertion-ordered list: `add_card` appends unconditionally
(the spec flags that a duplicate added by malformed source text is accepted),
so a list rather than a set is the faithful carrier. -/
structure Hand where
  cards : List Card
deriving DecidableEq, Repr

/-- Modelled from the spec: `Hand::new`. -/
def Hand.new : Hand := ⟨[]⟩

/-- Modelled from the spec: `Hand::add_card` (appends, no duplicate check). -/
def Hand.add_card (h : Hand) (c : Card) : Hand := ⟨h.cards ++ [c]⟩

/-- Modelled from the spec: `Hand::has_card`. -/
def Hand.has_card (h : Hand) (c : Card) : Bool := h.cards.contains c

/-- Modelled from the spec: `Hand::cards_in_suit`. -/
def Hand.cards_in_suit (h : Hand) (s : Suit) : List Card :=
  h.cards.filter (fun c => c.suit == s)

/-- Modelled from the spec: `Hand::from_cards`. -/
def Hand.from_cards (l : List Card) : Hand := ⟨l⟩

/-- Modelled from the spec: `bridge_types::Deal`, a mapping from each of the
four directions to a `Hand` (all keys always present, default empty). -/
structure Deal where
  north : Hand
  east : Hand
  south : Hand
  west : Hand
deriving DecidableEq, Repr

/-- Modelled from the spec: `Deal::new` (all four hands empty). -/
def Deal.new : Deal := ⟨Hand.new, Hand.new, Hand.new, Hand.new⟩

/-- Modelled from the spec: `Deal::hand`. -/
def Deal.hand (d : Deal) : Direction → Hand
  | .North => d.north
  | .East => d.east
  | .South => d.south
  | .West => d.west

/-- Modelled from the spec: `Deal::set_hand` (overwrites any prior hand). -/
def Deal.set_hand (d : Deal) (dir : Direction) (h : Hand) : Deal :=
  match dir with
  | .North => { d with north := h }
  | .East => { d with east := h }
  | .South => { d with south := h }
  | .West => { d with west := h }

theorem Deal.hand_set_hand (d : Deal) (dir dir' : Direction) (h : Hand) :
    (d.set_hand dir h).hand dir' = if dir = dir' then h else d.hand dir' := by
  cases dir <;> cases dir' <;> rfl

/-! ### Character-list utilities matching the `str` operations used -/

/-- A text line, as the character sequence of a Rust `&str`. -/
abbrev Line := List Char

/-- `str::trim` (both ends); `Char.isWhitespace` matches Rust's whitespace
set on the ASCII inputs in scope. -/
def trim (l : Line) : Line :=
  ((l.dropWhile Char.isWhitespace).reverse.dropWhile Char.isWhitespace).reverse

/-- Accumulator loop of `splitWs`: `acc` holds the characters of the token
currently being scanned, in reverse. -/
def splitWsAux : List Char → Line → List Line
  | [], acc => if acc.isEmpty then [] else [acc.reverse]
  | c :: cs, acc =>
    if c.isWhitespace then
      if acc.isEmpty then splitWsAux cs []
      else acc.reverse :: splitWsAux cs []
    else splitWsAux cs (c :: acc)

/-- `str::split_whitespace`: maximal runs of non-whitespace characters. -/
def splitWs (l : Line) : List Line := splitWsAux l []

/-- `str::split(sep)`: splits at every occurrence of `sep`, keeping empty
segments (a list of `n` separators yields `n+1` segments). -/
def splitOnChar (sep : Char) (l : Line) : List Line :=
  match l with
  | [] => [[]]
  | c :: cs =>
    if c = sep then [] :: splitOnChar sep cs
    else
      match splitOnChar sep cs with
      | s :: ss => (c :: s) :: ss
      | [] => [[c]]

/-- `str::trim_end_matches('.')`: removes every trailing `'.'`. -/
def trimEndDots (l : Line) : Line :=
  (l.reverse.dropWhile (fun c => c = '.')).reverse

/-- `str::parse::<usize>()`: optional leading `'+'`, then one or more ASCII
digits, rejecting values that overflow a 64-bit `usize`. -/
def parseUsize (s : Line) : Option Nat :=
  let ds := if s.head? = some '+' then s.tail else s
  if ds = [] ∨ ¬ ds.all Char.isDigit then none
  else
    let v := ds.foldl (fun a c => a * 10 + (c.toNat - 48)) 0
    if v < 2 ^ 64 then some v else none

/-- `str::parse::<u8>()`: like `parseUsize` but bounded by `2^8`. -/
def parseU8 (s : Line) : Option Nat :=
  let ds := if s.head? = some '+' then s.tail else s
  if ds = [] ∨ ¬ ds.all Char.isDigit then none
  else
    let v := ds.foldl (fun a c => a * 10 + (c.toNat - 48)) 0
    if v < 2 ^ 8 then some v else none

/-- Fuel-indexed helper for `natDigits`; any fuel exceeding the value is
enough, so the fuel is observationally irrelevant. -/
def natDigitsAux : Nat → Nat → Line
  | 0, _ => []
  | fuel + 1, n =>
    if n < 10 then [Char.ofNat (48 + n)]
    else natDigitsAux fuel (n / 10) ++ [Char.ofNat (48 + n % 10)]

/-- Decimal digit characters of `n`, most significant first (as produced by
Rust's `{}` formatting of an unsigned integer). -/
def natDigits (n : Nat) : Line := natDigitsAux (n + 1) n

/-! ### `src/oneline.rs` -/

/-- `oneline::parse_direction_char`: a single-character direction token,
case-insensitive. -/
def parse_direction_char (s : Line) : Except PError Direction :=
  match s.map Char.toLower with
  | ['n'] => .ok .North
  | ['e'] => .ok .East
  | ['s'] => .ok .South
  | ['w'] => .ok .West
  | _ => .error .oneline

/-- Decode a character sequence as cards of one suit, in text order, failing
with error kind `e` at the first character that is not a rank character
(the shared shape of the inner loops of `oneline::parse_hand` and of
`parse_printall`'s column scan). -/
def decodeRanks (e : PError) (suit : Suit) : List Char → Except PError (List Card)
  | [] => .ok []
  | c :: cs =>
    match Rank.from_char c with
    | some r => do
      let rest ← decodeRanks e suit cs
      .ok (Card.new suit r :: rest)
    | none => .error e

/-- One suit segment of a dot-separated hand: every character must be a rank
character; cards are appended in text order (inner loop of
`oneline::parse_hand`). -/
def parseSuitSeg (suit : Suit) (seg : Line) : Except PError (List Card) :=
  decodeRanks .oneline suit seg

/-- `oneline::parse_hand`: `Spades.Hearts.Diamonds.Clubs`, exactly 4
dot-separated segments, an empty segment meaning a void suit. -/
def parse_hand (s : Line) : Except PError Hand :=
  match splitOnChar '.' s with
  | [s0, s1, s2, s3] => do
    let c0 ← parseSuitSeg .Spades s0
    let c1 ← parseSuitSeg .Hearts s1
    let c2 ← parseSuitSeg .Diamonds s2
    let c3 ← parseSuitSeg .Clubs s3
    .ok ⟨c0 ++ c1 ++ c2 ++ c3⟩
  | _ => .error .oneline

/-- The body of `oneline::parse_oneline` on the whitespace-token list:
anything but exactly 8 tokens is rejected; otherwise tokens alternate
direction and hand, each pair parsed in order (direction before hand) and
installed with `set_hand` in input order. -/
def parseOnelineTokens (parts : List Line) : Except PError Deal :=
  match parts with
  | [p0, h0, p1, h1, p2, h2, p3, h3] => do
    let d0 ← parse_direction_char p0
    let hd0 ← parse_hand h0
    let d1 ← parse_direction_char p1
    let hd1 ← parse_hand h1
    let d2 ← parse_direction_char p2
    let hd2 ← parse_hand h2
    let d3 ← parse_direction_char p3
    let hd3 ← parse_hand h3
    .ok ((((Deal.new.set_hand d0 hd0).set_hand d1 hd1).set_hand d2 hd2).set_hand
      d3 hd3)
  | _ => .error .oneline

/-- `oneline::parse_oneline`: split on whitespace and parse the 8 tokens. -/
def parse_oneline (input : Line) : Except PError Deal :=
  parseOnelineTokens (splitWs input)

/-! ### `src/printall.rs` -/

/-- `printall::COLUMN_WIDTH`. -/
def COLUMN_WIDTH : Nat := 20

/-- Insert a card into a rank-descending list, before the first card of
lower-or-equal rank already present would be passed. -/
def insertDesc (c : Card) : List Card → List Card
  | [] => [c]
  | d :: ds =>
    if d.rank.val ≤ c.rank.val then c :: d :: ds else d :: insertDesc c ds

/-- `cards.sort_by(|a, b| b.rank.cmp(&a.rank))`: rank-descending sort.
Insertion sort is used here; within one suit, distinct cards have distinct
ranks, so every sort satisfying the comparator yields the same list. -/
def sortDesc : List Card → List Card
  | [] => []
  | c :: cs => insertDesc c (sortDesc cs)

/-- The characters one cell contributes: `"- "` for a void, otherwise each
rank character followed by a space (inner loop of `format_printall`). -/
def cellChars (cs : List Card) : Line :=
  if cs.isEmpty then ['-', ' ']
  else cs.flatMap (fun c => [c.rank.to_char, ' '])

/-- The slot count after emitting a cell (`cards_count` in the source):
1 for a void, otherwise the number of cards. -/
def cellCount (cs : List Card) : Nat :=
  if cs.isEmpty then 1 else cs.length

/-- One body line of `format_printall`: the four cells in North, East,
South, West order, each cell preceded by the padding that fills the previous
cell's column to 10 two-character slots (the initial count of 10 makes the
first padding empty). -/
def formatSuitLine (deal : Deal) (suit : Suit) : Line :=
  (Direction.ALL.foldl
    (fun (acc : Line × Nat) dir =>
      let padded := acc.1 ++ List.replicate (2 * (10 - acc.2)) ' '
      let cs := sortDesc ((deal.hand dir).cards_in_suit suit)
      (padded ++ cellChars cs, cellCount cs))
    ([], 10)).1

/-- The header line `format!("{:4}.", board_number)`: the decimal digits
right-justified in a 4-character field, followed by `'.'`. -/
def headerLine (board_number : Nat) : Line :=
  List.replicate (4 - (natDigits board_number).length) ' ' ++
    natDigits board_number ++ ['.']

/-- `printall::format_printall`, at line granularity: the header line, one
body line per suit in Spades, Hearts, Diamonds, Clubs order, and the final
empty line produced by the trailing `"\n\n"`. -/
def format_printall (deal : Deal) (board_number : Nat) : List Line :=
  headerLine board_number ::
    [Suit.Spades, Suit.Hearts, Suit.Diamonds, Suit.Clubs].map
      (fun suit => formatSuitLine deal suit) ++ [[]]

/-- The trimmed 20-character column slice `line[start..end].trim()` with
`start = col_idx * COLUMN_WIDTH` and `end` clamped to the line length
(`List.take` clamps implicitly); an out-of-range start yields `""`. -/
def columnSlice (line : Line) (col_idx : Nat) : Line :=
  let start := col_idx * COLUMN_WIDTH
  if start < line.length then trim ((line.drop start).take COLUMN_WIDTH)
  else []

/-- One trimmed column of a body line: `"-"` or empty means a void suit,
otherwise every character of every whitespace-separated token must decode as
a rank, and the resulting cards are appended in text order. -/
def parseSlot (suit : Suit) (column : Line) : Except PError (List Card) :=
  if column = ['-'] ∨ column = [] then .ok []
  else decodeRanks .pbn suit ((splitWs column).flatMap id)

/-- The four columns of one body line, in North, East, South, West order
(the column index also selects the accumulator slot `hands[hand_idx]`). -/
def parseBodyLine (suit : Suit) (line : Line) :
    Except PError (List Card × List Card × List Card × List Card) := do
  let n ← parseSlot suit (columnSlice line 0)
  let e ← parseSlot suit (columnSlice line 1)
  let s ← parseSlot suit (columnSlice line 2)
  let w ← parseSlot suit (columnSlice line 3)
  .ok (n, e, s, w)

/-- The header-line validity test of `parse_printall` (lines 88-94): the
trimmed line ends in `'.'` and, after removing every trailing dot and
re-trimming, parses as a `usize`. -/
def headerOk (header : Line) : Bool :=
  let h := trim header
  h.getLast? == some '.' && (parseUsize (trim (trimEndDots h))).isSome

/-- The per-direction row results of the 4 body lines. -/
abbrev RowCards := List Card × List Card × List Card × List Card

/-- Assemble the final deal of `parse_printall` from the 4 row results: the
cards of each direction's accumulator slot, suit rows concatenated in order,
installed with `set_hand` (`Hand::from_cards(mem::take(&mut hands[i]))`). -/
def assembleDeal (r1 r2 r3 r4 : RowCards) : Deal :=
  (((Deal.new.set_hand .North
    (Hand.from_cards (r1.1 ++ r2.1 ++ r3.1 ++ r4.1))).set_hand .East
    (Hand.from_cards (r1.2.1 ++ r2.2.1 ++ r3.2.1 ++ r4.2.1))).set_hand
    .South
    (Hand.from_cards (r1.2.2.1 ++ r2.2.2.1 ++ r3.2.2.1 ++ r4.2.2.1)))
    |>.set_hand .West
    (Hand.from_cards (r1.2.2.2 ++ r2.2.2.2 ++ r3.2.2.2 ++ r4.2.2.2))

/-- The extra consumed line of a trailing blank separator, if present. -/
def trailingBlank (rest : List Line) : Nat :=
  match rest with
  | l :: _ => if (trim l).isEmpty then 1 else 0
  | [] => 0

/-- The body-line phase of `parse_printall`: consume 4 body lines (one per
suit in Spades, Hearts, Diamonds, Clubs order, erring when fewer remain),
optionally count one trailing blank line, and return the assembled deal with
the consumed-line count (`b` leading blanks already skipped). -/
def parsePrintallBody (b : Nat) : List Line → Except PError (Deal × Nat)
  | l1 :: l2 :: l3 :: l4 :: rest => do
    let r1 ← parseBodyLine .Spades l1
    let r2 ← parseBodyLine .Hearts l2
    let r3 ← parseBodyLine .Diamonds l3
    let r4 ← parseBodyLine .Clubs l4
    .ok (assembleDeal r1 r2 r3 r4, b + 5 + trailingBlank rest)
  | _ => .error .pbn

/-- `printall::parse_printall`: skip leading blank lines, validate the
header line, then run the body phase on the remaining lines. -/
def parse_printall (lines : List Line) :
    Except PError (Deal × Nat) :=
  let b := (lines.takeWhile (fun l => (trim l).isEmpty)).length
  match lines.drop b with
  | [] => .error .pbn
  | header :: body =>
    if !headerOk header then .error .pbn
    else parsePrintallBody b body

/-! ### `src/lin/mod.rs` -/

/-- `str::trim_end_matches('!')`: removes every trailing `'!'`. -/
def trimEndBangs (l : Line) : Line :=
  (l.reverse.dropWhile (fun c => c = '!')).reverse

/-- The `value.replace('+', " ")` decoding used for `ah` and `an` values. -/
def plusToSpace (l : Line) : Line :=
  l.map (fun c => if c = '+' then ' ' else c)

/-- A bid of the auction (source: `BidWithAnnotation`; the explanation field,
`annotation` in the source, is called `note` here). -/
structure BidInfo where
  bid : Line
  alert : Bool
  note : Option Line
deriving DecidableEq, Repr

/-- Modelled from the spec: `bridge_types::Vulnerability`, 4 values. -/
inductive Vulnerability where
  | None | NorthSouth | EastWest | Both
deriving DecidableEq, Repr

/-- `lin::LinData` (player names in S, W, N, E order). -/
structure LinData where
  player_names : List Line
  dealer : Direction
  deal : Deal
  vulnerability : Vulnerability
  board_header : Option Line
  auction : List BidInfo
  play : List Card
  claim : Option Nat
deriving DecidableEq, Repr

/-- The initial accumulator of `parse_lin` (empty names, dealer North,
empty deal, no vulnerability, no header, no auction, no play, no claim). -/
def LinData.init : LinData :=
  ⟨[[], [], [], []], .North, Deal.new, .None, none, [], [], none⟩

/-- `lin::parse_sv`: vulnerability codes, unrecognized codes defaulting to
none. -/
def parse_sv (sv : Line) : Vulnerability :=
  let t := sv.map Char.toLower
  if t = ['o'] ∨ t = ['0'] ∨ t = ['-'] then .None
  else if t = ['n'] ∨ t = ['n', 's'] then .NorthSouth
  else if t = ['e'] ∨ t = ['e', 'w'] then .EastWest
  else if t = ['b'] ∨ t = ['b', 'o', 't', 'h'] ∨ t = ['a', 'l', 'l'] then .Both
  else .None

/-- `lin::parse_card`: first character a suit, second a rank, any remainder
ignored. -/
def parse_card (card_str : Line) : Option Card :=
  match card_str with
  | suit_char :: rank_char :: _ => do
    let suit ← Suit.from_char suit_char
    let rank ← Rank.from_char rank_char
    some (Card.new suit rank)
  | _ => none

/-- The character loop of `lin::parse_lin_hand`: a suit letter
(case-insensitive) switches the current suit; any other character is added
as a card of the current suit when it is a rank character and a suit has
been seen, and is otherwise ignored. -/
def linHandLoop (s : Line) (current_suit : Option Suit) : List Card :=
  match s with
  | [] => []
  | c :: cs =>
    match Suit.from_char c.toUpper with
    | some suit => linHandLoop cs (some suit)
    | none =>
      match current_suit with
      | some suit =>
        match Rank.from_char c with
        | some r => Card.new suit r :: linHandLoop cs current_suit
        | none => linHandLoop cs current_suit
      | none => linHandLoop cs current_suit

/-- `lin::parse_lin_hand`: never fails. -/
def parse_lin_hand (hand_str : Line) : Option Hand :=
  some ⟨linHandLoop hand_str none⟩

/-- The 52-card universe in the iteration order of `calculate_fourth_hand`
(`for suit in Suit::ALL { for rank in Rank::ALL { ... } }`). -/
def allCards : List Card :=
  Suit.ALL.flatMap (fun s => Rank.ALL.map (fun r => Card.new s r))

/-- `lin::calculate_fourth_hand`: every card of the 52-card universe held by
no direction other than `fourth_dir` is added to the fourth hand. -/
def calculate_fourth_hand (deal : Deal) (fourth_dir : Direction) :
    Option Hand :=
  some ⟨allCards.filter (fun card =>
    !(Direction.ALL.any
      (fun dir => decide (dir ≠ fourth_dir) && (deal.hand dir).has_card card)))⟩

/-- `lin::parse_md`: a dealer digit (1=S, 2=W, 3=N, 4=E), then at least 3
comma-separated hand strings; the first three are installed for South, West,
North, and the East hand is computed by `calculate_fourth_hand`. -/
def parse_md (md_str : Line) : Option (Direction × Deal) :=
  match md_str with
  | [] => none
  | dealer_char :: hands_str =>
    let dealerOpt : Option Direction :=
      match dealer_char with
      | '1' => some .South
      | '2' => some .West
      | '3' => some .North
      | '4' => some .East
      | _ => none
    match dealerOpt with
    | none => none
    | some dealer =>
      let hand_strs := splitOnChar ',' hands_str
      if hand_strs.length < 3 then none
      else
        let deal := ((hand_strs.take 3).zip
            [Direction.South, Direction.West, Direction.North]).foldl
          (fun deal p =>
            match parse_lin_hand p.1 with
            | some hand => deal.set_hand p.2 hand
            | none => deal) Deal.new
        let deal := match calculate_fourth_hand deal .East with
          | some fourth => deal.set_hand .East fourth
          | none => deal
        some (dealer, deal)

/-- The eight recognized keys of the `parse_lin` token loop. -/
def linKeys : List Line :=
  [['p', 'n'], ['m', 'd'], ['s', 'v'], ['a', 'h'], ['m', 'b'], ['a', 'n'],
   ['p', 'c'], ['m', 'c']]

/-- The state update a recognized key performs on its value token. -/
def linApply (t : Line) (v : Line) (st : LinData) : LinData :=
  if t = ['p', 'n'] then
    { st with player_names := (((splitOnChar ',' v).enum.take 4).foldl
        (fun pn jn => pn.set jn.1 jn.2) st.player_names) }
  else if t = ['m', 'd'] then
    match parse_md v with
    | some p => { st with dealer := p.1, deal := p.2 }
    | none => st
  else if t = ['s', 'v'] then { st with vulnerability := parse_sv v }
  else if t = ['a', 'h'] then { st with board_header := some (plusToSpace v) }
  else if t = ['m', 'b'] then
    let ba : Line × Bool :=
      if v.getLast? == some '!' then (trimEndBangs v, true) else (v, false)
    { st with auction := st.auction ++ [⟨ba.1, ba.2, none⟩] }
  else if t = ['a', 'n'] then
    match st.auction.getLast? with
    | some lb => { st with auction :=
        st.auction.dropLast ++ [{ lb with note := some (plusToSpace v) }] }
    | none => st
  else if t = ['p', 'c'] then
    match parse_card v with
    | some c => { st with play := st.play ++ [c] }
    | none => st
  else { st with claim := parseU8 v }

/-- The token loop of `lin::parse_lin`: keys are matched on the trimmed
token; a recognized key consumes the following token as its value when one
exists (a recognized key at end of input, with no value token, changes
nothing, and neither does a trailing unrecognized token); unrecognized
tokens are skipped without consuming a value. -/
def linLoop : List Line → LinData → LinData
  | [], st => st
  | [_], st => st
  | tok :: v :: rest, st =>
    let t := trim tok
    if t ∈ linKeys then linLoop rest (linApply t v st)
    else linLoop (v :: rest) st

/-- `lin::parse_lin`: tokenize on `'|'` and run the key loop; the function
has no error return. -/
def parse_lin (lin_str : Line) : Except PError LinData :=
  .ok (linLoop (splitOnChar '|' lin_str) LinData.init)

/-! ### `src/reader.rs` -/

/-- Cyclic successor order N, E, S, W (used to assign the four hands of a
PBN deal value clockwise from its anchor direction). -/
def Direction.next : Direction → Direction
  | .North => .East
  | .East => .South
  | .South => .West
  | .West => .North

/-- Strip an expected leading literal, as `str::strip_prefix`. -/
def dropLit (lit : Line) (l : Line) : Option Line :=
  if lit.isPrefixOf l then some (l.drop lit.length) else none

/-- Strip an expected trailing literal, as `str::strip_suffix`. -/
def dropEndLit (lit : Line) (l : Line) : Option Line :=
  if lit.isSuffixOf l then some (l.take (l.length - lit.length)) else none

/-- Modelled from the spec: `bridge_types::Deal::from_pbn`, which lives in
the external `bridge_types` crate.  Per the spec's interface section, a PBN
deal value is `<dir>:<hand> <hand> <hand> <hand>` with each hand in
dot-separated Spades.Hearts.Diamonds.Clubs notation, hands assigned to
consecutive directions clockwise from the anchor direction. -/
def Deal.from_pbn (s : Line) : Option Deal :=
  match s with
  | d :: ':' :: rest =>
    (match parse_direction_char [d] with
     | .ok dir =>
       (match splitWs rest with
        | [h1, h2, h3, h4] =>
          (match parse_hand h1, parse_hand h2, parse_hand h3, parse_hand h4 with
           | .ok a, .ok b, .ok c, .ok e =>
             some ((((Deal.new.set_hand dir a).set_hand dir.next b).set_hand
               dir.next.next c).set_hand dir.next.next.next e)
           | _, _, _, _ => none)
        | _ => none)
     | .error _ => none)
  | _ => none

/-- The literal `"[Deal "`. -/
def dealTagLit : Line := ['[', 'D', 'e', 'a', 'l', ' ']

/-- `reader::try_parse_pbn_deal_tag`: strip `[`, `]`, `Deal `, and the
surrounding quotes, then parse the value as a PBN deal. -/
def try_parse_pbn_deal_tag (line : Line) : Option Deal := do
  let inner ← dropLit ['['] line
  let inner ← dropEndLit [']'] inner
  let rest ← dropLit dealTagLit.tail inner
  let value ← dropLit ['"'] rest
  let value ← dropEndLit ['"'] value
  Deal.from_pbn value

/-- `reader::is_board_number_line`: the trimmed line ends in `'.'`, is
nonempty, and everything before the final character parses (after trimming)
as a `usize`. -/
def is_board_number_line (line : Line) : Bool :=
  let t := trim line
  t.getLast? == some '.' && !t.isEmpty &&
    (parseUsize (trim (t.take (t.length - 1)))).isSome

/-- The dummy header `"   1."` that `try_read_printall` prepends to the four
pulled body lines. -/
def dummyHeader : Line := [' ', ' ', ' ', '1', '.']

/-- The sequence of items produced by iterating `DealReader::next` over a
line source: blank lines are skipped; a line decoding as a oneline deal is
emitted; a `[Deal "..."]` tag line is emitted when its value parses; a board
number header line triggers the irrevocable pull of the next 4 lines, after
which the 5-line block's parse result (success or failure) is emitted, or,
when fewer than 4 lines remain, the sequence ends; any other line is skipped
(`reader::DealReader::next` together with `try_read_printall`). -/
def readAll : List Line → List (Except PError Deal)
  | [] => []
  | l :: rest =>
    let t := trim l
    if t.isEmpty then readAll rest
    else
      match parse_oneline t with
      | .ok deal => .ok deal :: readAll rest
      | .error _ =>
        match (if dealTagLit.isPrefixOf t then try_parse_pbn_deal_tag t
          else none) with
        | some deal => .ok deal :: readAll rest
        | none =>
          if is_board_number_line t then
            match rest with
            | a :: b :: c :: d :: rest2 =>
              match parse_printall [dummyHeader, a, b, c, d] with
              | .ok dn => .ok dn.1 :: readAll rest2
              | .error e => .error e :: readAll rest2
            | _ => []
          else readAll rest

/-! ## Shared lemmas -/

theorem Deal.hand_new (dir : Direction) : Deal.new.hand dir = Hand.new := by
  cases dir <;> rfl

theorem Hand.has_card_iff (h : Hand) (c : Card) :
    h.has_card c = true ↔ c ∈ h.cards := by
  simp [Hand.has_card, List.elem_iff]

theorem mem_direction_ALL (dir : Direction) : dir ∈ Direction.ALL := by
  cases dir <;> simp [Direction.ALL]

theorem mem_allCards (c : Card) : c ∈ allCards := by
  rcases c with ⟨s, r⟩
  cases s <;> cases r <;> decide

theorem allCards_nodup : allCards.Nodup := by decide

theorem allCards_length : allCards.length = 52 := by decide

/-! ## C9: `parse_lin` has no reachable error path -/

/-- C9: `parse_lin` returns `Ok` for every input string — the pipe-tokenized
decoder has no reachable error path; unrecognized keys, malformed `md`,
`pc`, `mc` values, and a key at end of input with no following value token
are all handled without error. -/
theorem parse_lin_total (lin_str : Line) :
    ∃ data, parse_lin lin_str = .ok data :=
  ⟨_, rfl⟩

/-! ## C10: `parse_oneline` with repeated direction tokens -/

/-- C10: `parse_oneline` does not require the four direction tokens to be
distinct: with 8 well-formed tokens, parsing succeeds, the hand of each
direction is the hand of the *last* token pair naming it (later `set_hand`
overwrites earlier), and a direction never mentioned keeps the empty hand. -/
theorem parse_oneline_repeat
    (input p0 h0 p1 h1 p2 h2 p3 h3 : Line)
    (D0 D1 D2 D3 : Direction) (H0 H1 H2 H3 : Hand)
    (hsplit : splitWs input = [p0, h0, p1, h1, p2, h2, p3, h3])
    (hp0 : parse_direction_char p0 = .ok D0)
    (hh0 : parse_hand h0 = .ok H0)
    (hp1 : parse_direction_char p1 = .ok D1)
    (hh1 : parse_hand h1 = .ok H1)
    (hp2 : parse_direction_char p2 = .ok D2)
    (hh2 : parse_hand h2 = .ok H2)
    (hp3 : parse_direction_char p3 = .ok D3)
    (hh3 : parse_hand h3 = .ok H3) :
    ∃ deal, parse_oneline input = .ok deal ∧ ∀ dir : Direction,
      deal.hand dir =
        if D3 = dir then H3
        else if D2 = dir then H2
        else if D1 = dir then H1
        else if D0 = dir then H0
        else Hand.new := by
  refine ⟨(((Deal.new.set_hand D0 H0).set_hand D1 H1).set_hand D2 H2).set_hand
    D3 H3, ?_, ?_⟩
  · rw [parse_oneline, hsplit]
    simp only [parseOnelineTokens, hp0, hh0, hp1, hh1, hp2, hh2, hp3, hh3]
    rfl
  · intro dir
    simp [Deal.hand_set_hand, Deal.hand_new]

/-- Witness for C10 at a concrete input in which the direction letter `n`
appears twice and `e` never: North ends with the second `n` hand, East stays
empty. -/
theorem parse_oneline_repeat_witness :
    ∃ deal,
      parse_oneline (("n A.2.3.4 n K.5.6.7 s Q.8.9.T w J...").toList) =
        .ok deal ∧
      ∀ dir : Direction,
        deal.hand dir =
          if Direction.West = dir then ⟨[⟨.Spades, .Jack⟩]⟩
          else if Direction.South = dir then
            ⟨[⟨.Spades, .Queen⟩, ⟨.Hearts, .Eight⟩, ⟨.Diamonds, .Nine⟩,
              ⟨.Clubs, .Ten⟩]⟩
          else if Direction.North = dir then
            ⟨[⟨.Spades, .King⟩, ⟨.Hearts, .Five⟩, ⟨.Diamonds, .Six⟩,
              ⟨.Clubs, .Seven⟩]⟩
          else if Direction.North = dir then
            ⟨[⟨.Spades, .Ace⟩, ⟨.Hearts, .Two⟩, ⟨.Diamonds, .Three⟩,
              ⟨.Clubs, .Four⟩]⟩
          else Hand.new :=
  parse_oneline_repeat (("n A.2.3.4 n K.5.6.7 s Q.8.9.T w J...").toList)
    (("n").toList) (("A.2.3.4").toList) (("n").toList) (("K.5.6.7").toList)
    (("s").toList) (("Q.8.9.T").toList) (("w").toList) (("J...").toList)
    .North .North .South .West
    ⟨[⟨.Spades, .Ace⟩, ⟨.Hearts, .Two⟩, ⟨.Diamonds, .Three⟩, ⟨.Clubs, .Four⟩]⟩
    ⟨[⟨.Spades, .King⟩, ⟨.Hearts, .Five⟩, ⟨.Diamonds, .Six⟩, ⟨.Clubs, .Seven⟩]⟩
    ⟨[⟨.Spades, .Queen⟩, ⟨.Hearts, .Eight⟩, ⟨.Diamonds, .Nine⟩,
      ⟨.Clubs, .Ten⟩]⟩
    ⟨[⟨.Spades, .Jack⟩]⟩
    (by decide) (by decide) (by decide) (by decide) (by decide) (by decide)
    (by decide) (by decide) (by decide)

/-! ## C1 / C8: fourth-hand inference -/

/-- The cards of the hands other than `d`, in direction order. -/
def othersCards (deal : Deal) (d : Direction) : List Card :=
  (Direction.ALL.filter (fun x => x != d)).flatMap
    (fun dir => (deal.hand dir).cards)

/-- All cards of a deal, in direction order. -/
def allDealCards (deal : Deal) : List Card :=
  Direction.ALL.flatMap (fun dir => (deal.hand dir).cards)

theorem fourth_found_iff (deal : Deal) (fd : Direction) (c : Card) :
    (Direction.ALL.any
      (fun dir => decide (dir ≠ fd) && (deal.hand dir).has_card c)) = true ↔
      c ∈ othersCards deal fd := by
  simp only [othersCards, List.mem_flatMap, List.mem_filter,
    List.any_eq_true, Hand.has_card_iff, Bool.and_eq_true, decide_eq_true_eq,
    bne_iff_ne, ne_eq]
  tauto

theorem mem_othersCards_iff (deal : Deal) (d : Direction) (c : Card) :
    c ∈ othersCards deal d ↔
      ∃ dir : Direction, dir ≠ d ∧ c ∈ (deal.hand dir).cards := by
  rw [← fourth_found_iff]
  simp only [List.any_eq_true, Bool.and_eq_true, decide_eq_true_eq,
    Hand.has_card_iff]
  constructor
  · rintro ⟨dir, _, hne, hc⟩
    exact ⟨dir, hne, hc⟩
  · rintro ⟨dir, hne, hc⟩
    exact ⟨dir, mem_direction_ALL dir, hne, hc⟩

theorem calculate_fourth_hand_eq (deal : Deal) (fd : Direction) :
    calculate_fourth_hand deal fd = some ⟨allCards.filter (fun card =>
      !(Direction.ALL.any
        (fun dir => decide (dir ≠ fd) && (deal.hand dir).has_card card)))⟩ :=
  rfl

theorem calculate_fourth_hand_mem (deal : Deal) (fd : Direction) (h : Hand)
    (hcalc : calculate_fourth_hand deal fd = some h) (c : Card) :
    c ∈ h.cards ↔ c ∉ othersCards deal fd := by
  rw [calculate_fourth_hand_eq] at hcalc
  obtain rfl : h = _ := (Option.some_inj.mp hcalc).symm
  simp only [List.mem_filter, Bool.not_eq_eq_eq_not, Bool.not_true,
    mem_allCards, true_and]
  rw [← fourth_found_iff deal fd c]
  constructor
  · intro hfalse htrue
    rw [htrue] at hfalse
    cases hfalse
  · intro hne
    cases hval : (Direction.ALL.any
      (fun dir => decide (dir ≠ fd) && (deal.hand dir).has_card c)) with
    | false => rfl
    | true => exact absurd hval hne

theorem list_extract_perm {α : Type} (A h B : List α) :
    List.Perm (A ++ (h ++ B)) (h ++ (A ++ B)) := by
  rw [← List.append_assoc, ← List.append_assoc]
  exact (List.perm_append_comm).append_right B

theorem allDealCards_set_perm (deal : Deal) (d : Direction) (h : Hand) :
    List.Perm (allDealCards (deal.set_hand d h))
      (h.cards ++ othersCards deal d) := by
  cases d with
  | North =>
    have hf : Direction.ALL.filter (fun x => x != Direction.North) =
        [.East, .South, .West] := by decide
    simp only [othersCards, hf]
    simp [allDealCards, Direction.ALL, Deal.set_hand, Deal.hand]
  | East =>
    have hf : Direction.ALL.filter (fun x => x != Direction.East) =
        [.North, .South, .West] := by decide
    simp only [othersCards, hf]
    simp only [allDealCards, Direction.ALL, Deal.set_hand, Deal.hand,
      List.flatMap_cons, List.flatMap_nil, List.append_nil]
    exact list_extract_perm deal.north.cards h.cards _
  | South =>
    have hf : Direction.ALL.filter (fun x => x != Direction.South) =
        [.North, .East, .West] := by decide
    simp only [othersCards, hf]
    simp only [allDealCards, Direction.ALL, Deal.set_hand, Deal.hand,
      List.flatMap_cons, List.flatMap_nil, List.append_nil]
    have he : deal.north.cards ++ (deal.east.cards ++ (h.cards ++
        deal.west.cards)) = (deal.north.cards ++ deal.east.cards) ++
        (h.cards ++ deal.west.cards) := by
      simp [List.append_assoc]
    rw [he]
    refine (list_extract_perm (deal.north.cards ++ deal.east.cards)
      h.cards deal.west.cards).trans ?_
    simp [List.append_assoc]
  | West =>
    have hf : Direction.ALL.filter (fun x => x != Direction.West) =
        [.North, .East, .South] := by decide
    simp only [othersCards, hf]
    simp only [allDealCards, Direction.ALL, Deal.set_hand, Deal.hand,
      List.flatMap_cons, List.flatMap_nil, List.append_nil]
    have he : deal.north.cards ++ (deal.east.cards ++ (deal.south.cards ++
        h.cards)) = (deal.north.cards ++ (deal.east.cards ++
        deal.south.cards)) ++ (h.cards ++ []) := by
      simp [List.append_assoc]
    rw [he]
    refine (list_extract_perm _ h.cards []).trans ?_
    simp [List.append_assoc]

/-- C1: for a deal in which the three hands other than the designated
implicit direction `d` are pairwise disjoint, duplicate-free and total 39
cards (and `d`'s hand is empty — exactly 3 hands populated),
`calculate_fourth_hand` returns the hand holding exactly the 13-card
complement of their union in the 52-card universe, and installing it makes
the deal complete: 52 cards in total with no card in two hands.  (Pairwise
disjointness and per-hand freedom from duplicates are together expressed as
`Nodup` of the concatenation `othersCards`.) -/
theorem calculate_fourth_hand_complete (deal : Deal) (d : Direction)
    (_hempty : (deal.hand d).cards = [])
    (hnodup : (othersCards deal d).Nodup)
    (hlen : (othersCards deal d).length = 39) :
    ∃ h, calculate_fourth_hand deal d = some h ∧
      (∀ c : Card, c ∈ h.cards ↔ c ∉ othersCards deal d) ∧
      h.cards.length = 13 ∧
      (allDealCards (deal.set_hand d h)).Nodup ∧
      (allDealCards (deal.set_hand d h)).length = 52 := by
  obtain ⟨h, hcalc⟩ : ∃ h, calculate_fourth_hand deal d = some h := ⟨_, rfl⟩
  have hmem := calculate_fourth_hand_mem deal d h hcalc
  have hcards : h.cards = allCards.filter (fun card =>
      !(Direction.ALL.any
        (fun dir => decide (dir ≠ d) && (deal.hand dir).has_card card))) := by
    rw [calculate_fourth_hand_eq] at hcalc
    exact congrArg Hand.cards (Option.some_inj.mp hcalc).symm
  have hfnodup : h.cards.Nodup := by
    rw [hcards]; exact allCards_nodup.filter _
  have hlen13 : h.cards.length = 13 := by
    have hsplit := (List.filter_append_perm (fun card =>
      !(Direction.ALL.any
        (fun dir => decide (dir ≠ d) && (deal.hand dir).has_card card)))
      allCards).length_eq
    rw [List.length_append, allCards_length] at hsplit
    have hcompl : (allCards.filter (fun card =>
        !(!(Direction.ALL.any (fun dir => decide (dir ≠ d) &&
          (deal.hand dir).has_card card))))).Perm (othersCards deal d) := by
      refine List.perm_of_nodup_nodup_toFinset_eq
        (allCards_nodup.filter _) hnodup ?_
      ext c
      simp only [List.mem_toFinset, List.mem_filter, mem_allCards, true_and,
        Bool.not_not]
      exact fourth_found_iff deal d c
    have h39 := hcompl.length_eq
    rw [hlen] at h39
    rw [hcards]
    omega
  refine ⟨h, hcalc, hmem, hlen13, ?_, ?_⟩
  · rw [(allDealCards_set_perm deal d h).nodup_iff]
    rw [List.nodup_append]
    exact ⟨hfnodup, hnodup, fun c hc => (hmem c).mp hc⟩
  · rw [(allDealCards_set_perm deal d h).length_eq, List.length_append,
      hlen13, hlen]

/-- Witness deal for C1: three explicit 13-card hands, West designated
implicit with an empty hand. -/
def c1ExDeal : Deal :=
  match parse_oneline
    (("n AKQT3.J6.KJ42.95 e 652.AK42.AQ87.T4 s J74.QT95.T.AK863 w ...").toList)
    with
  | .ok d => d
  | .error _ => Deal.new

/-- Witness for C1 at `c1ExDeal` with West implicit. -/
theorem calculate_fourth_hand_complete_witness :
    ∃ h, calculate_fourth_hand c1ExDeal .West = some h ∧
      (∀ c : Card, c ∈ h.cards ↔ c ∉ othersCards c1ExDeal .West) ∧
      h.cards.length = 13 ∧
      (allDealCards (c1ExDeal.set_hand .West h)).Nodup ∧
      (allDealCards (c1ExDeal.set_hand .West h)).length = 52 :=
  calculate_fourth_hand_complete c1ExDeal .West (by decide) (by decide)
    (by decide)

/-- C8: whenever `parse_md` accepts its input (valid dealer digit, at least
3 comma-separated hand strings), the fourth (East) hand of the returned deal
is the exact 52-card complement of the union of the other three hands: a
card lies in East's hand precisely when none of the other three hands holds
it.  Consequently the union of the four hands is always the full 52-card
universe — even when the supplied hands overlap or do not total 39 cards
(in which case a card can appear in two hands, as at the witness below). -/
theorem parse_md_fourth_complement (s : Line) (p : Direction × Deal)
    (h : parse_md s = some p) :
    (∀ c : Card, c ∈ (p.2.hand .East).cards ↔
      ∀ dir : Direction, dir ≠ .East → c ∉ (p.2.hand dir).cards) ∧
    (∀ c : Card, ∃ dir : Direction, (p.2.hand dir).has_card c = true) := by
  rcases s with _ | ⟨c0, rest⟩
  · simp [parse_md] at h
  · simp only [parse_md] at h
    split at h
    · exact absurd h (by simp)
    · rename_i dealer hdealer
      split at h
      · exact absurd h (by simp)
      · simp only [calculate_fourth_hand] at h
        obtain rfl : p = _ := (Option.some_inj.mp h).symm
        set deal3 := ((splitOnChar ',' rest).take 3).zip
          [Direction.South, Direction.West, Direction.North] |>.foldl
          (fun deal p =>
            match parse_lin_hand p.1 with
            | some hand => deal.set_hand p.2 hand
            | none => deal) Deal.new with hdeal3
        have hE : (deal3.set_hand .East
            ⟨allCards.filter (fun card => !(Direction.ALL.any
              (fun dir => decide (dir ≠ Direction.East) &&
                (deal3.hand dir).has_card card)))⟩).hand .East =
            ⟨allCards.filter (fun card => !(Direction.ALL.any
              (fun dir => decide (dir ≠ Direction.East) &&
                (deal3.hand dir).has_card card)))⟩ := by
          rw [Deal.hand_set_hand, if_pos rfl]
        have hO : ∀ dir : Direction, dir ≠ .East →
            (deal3.set_hand .East
              ⟨allCards.filter (fun card => !(Direction.ALL.any
                (fun dir => decide (dir ≠ Direction.East) &&
                  (deal3.hand dir).has_card card)))⟩).hand dir =
              deal3.hand dir := by
          intro dir hdir
          rw [Deal.hand_set_hand, if_neg (fun he => hdir he.symm)]
        have hmemF :=
          calculate_fourth_hand_mem deal3 .East _
            (calculate_fourth_hand_eq deal3 .East)
        refine ⟨?_, ?_⟩
        · intro c
          rw [hE, hmemF c, mem_othersCards_iff]
          constructor
          · intro hno dir hdir
            rw [hO dir hdir]
            intro hc
            exact hno ⟨dir, hdir, hc⟩
          · rintro hall ⟨dir, hdir, hc⟩
            have hcc := hall dir hdir
            rw [hO dir hdir] at hcc
            exact hcc hc
        · intro c
          cases hany : (Direction.ALL.any
            (fun dir => decide (dir ≠ Direction.East) &&
              (deal3.hand dir).has_card c)) with
          | true =>
            obtain ⟨dir, _, hdir⟩ := List.any_eq_true.mp hany
            rw [Bool.and_eq_true, decide_eq_true_eq] at hdir
            refine ⟨dir, ?_⟩
            rw [hO dir hdir.1]
            exact hdir.2
          | false =>
            refine ⟨.East, ?_⟩
            rw [hE, Hand.has_card_iff]
            simp only [List.mem_filter, mem_allCards, true_and, hany,
              Bool.not_false]

/-- The `md` value of the spec's concrete LIN scenario. -/
def c8Ex : Line :=
  ("3SAKHJD876C5432,S2HQT9DKQ5CKQJT9,SQJT9HA32DAJ2CA8,").toList

/-- The parse result of `c8Ex` (accepted, so `getD` returns the real
result). -/
def c8ExResult : Direction × Deal := (parse_md c8Ex).getD (.North, Deal.new)

/-- Witness for C8: at the spec's concrete `md` value, parsing succeeds;
the ace of spades satisfies the East-hand complement characterization, and
the two of hearts lies in some hand. -/
theorem parse_md_fourth_complement_witness :
    ((⟨.Spades, .Ace⟩ : Card) ∈ (c8ExResult.2.hand .East).cards ↔
      ∀ dir : Direction, dir ≠ .East →
        (⟨.Spades, .Ace⟩ : Card) ∉ (c8ExResult.2.hand dir).cards) ∧
    (∃ dir : Direction,
      (c8ExResult.2.hand dir).has_card ⟨.Hearts, .Two⟩ = true) :=
  ⟨(parse_md_fourth_complement c8Ex c8ExResult (by decide)).1
      ⟨.Spades, .Ace⟩,
    (parse_md_fourth_complement c8Ex c8ExResult (by decide)).2
      ⟨.Hearts, .Two⟩⟩

/-! ## Reader lemmas -/

theorem readAll_skip_line (l : Line) (rest : List Line)
    (h1 : (trim l).isEmpty = false)
    (h2 : ∃ e, parse_oneline (trim l) = .error e)
    (h3 : dealTagLit.isPrefixOf (trim l) = false)
    (h4 : is_board_number_line (trim l) = false) :
    readAll (l :: rest) = readAll rest := by
  obtain ⟨e, he⟩ := h2
  rw [readAll.eq_def]
  simp_all

theorem splitWsAux_word (w : Line) (rest : List Char) (acc : Line)
    (hw : ∀ c ∈ w, c.isWhitespace = false) :
    splitWsAux (w ++ rest) acc = splitWsAux rest (w.reverse ++ acc) := by
  induction w generalizing acc with
  | nil => simp
  | cons c w' ih =>
    have hc : c.isWhitespace = false := hw c (List.mem_cons_self c w')
    calc splitWsAux ((c :: w') ++ rest) acc
        = splitWsAux (w' ++ rest) (c :: acc) := by
          simp [splitWsAux, hc]
      _ = splitWsAux rest (w'.reverse ++ (c :: acc)) :=
          ih (c :: acc) (fun x hx => hw x (List.mem_cons_of_mem c hx))
      _ = splitWsAux rest ((c :: w').reverse ++ acc) := by simp

theorem splitWs_word_space (w : Line) (suf : List Char)
    (hne : w ≠ []) (hw : ∀ c ∈ w, c.isWhitespace = false) :
    splitWs (w ++ (' ' :: suf)) = w :: splitWs suf := by
  rw [splitWs, splitWsAux_word w (' ' :: suf) [] hw]
  have hrev : (w.reverse ++ []).isEmpty = false := by
    simp [List.isEmpty_iff, hne]
  simp only [splitWsAux, Char.isWhitespace]
  simp [hrev, List.isEmpty_iff, hne, splitWs]

theorem trim_head (c : Char) (xs : List Char) (hc : c.isWhitespace = false) :
    ∃ ys, trim (c :: xs) = c :: ys := by
  rw [trim]
  rw [List.dropWhile_cons, hc]
  simp only [Bool.false_eq_true, if_false, List.reverse_cons,
    List.dropWhile_append]
  by_cases hxe : (xs.reverse.dropWhile Char.isWhitespace).isEmpty = true
  · refine ⟨[], ?_⟩
    rw [if_pos hxe]
    simp [List.dropWhile_cons, hc]
  · refine ⟨(xs.reverse.dropWhile Char.isWhitespace).reverse, ?_⟩
    rw [if_neg hxe, List.reverse_append]
    simp

theorem parseUsize_none_head (c : Char) (ys : List Char)
    (h1 : c ≠ '+') (h2 : c.isDigit = false) :
    parseUsize (c :: ys) = none := by
  rw [parseUsize]
  have hm : ((c :: ys : Line).head? = some '+') = False := by
    simp [List.head?, h1]
  simp only [hm, if_false]
  rw [if_pos]
  right
  simp [List.all_cons, h2]

theorem is_board_false_of_head (c : Char) (xs : List Char)
    (hws : c.isWhitespace = false) (hplus : c ≠ '+')
    (hdig : c.isDigit = false) (hdot : c ≠ '.') :
    is_board_number_line (c :: xs) = false := by
  obtain ⟨ys, hys⟩ := trim_head c xs hws
  rw [is_board_number_line]
  rw [hys]
  rcases ys with _ | ⟨y, ys'⟩
  · simp [List.getLast?, hdot]
  · by_cases hlast : ((c :: y :: ys' : Line).getLast? == some '.') = true
    · have htake : (c :: y :: ys' : Line).take
          ((c :: y :: ys' : Line).length - 1) =
          c :: ((y :: ys' : Line).take ((y :: ys').length - 1)) := by
        simp [List.length_cons]
      rw [htake]
      obtain ⟨zs, hzs⟩ := trim_head c _ hws
      rw [hzs, parseUsize_none_head c zs hplus hdig]
      simp
    · simp only [Bool.and_eq_false_iff]
      left; left
      exact Bool.not_eq_true _ ▸ (by simpa using hlast)

theorem parse_direction_char_err_of_length (w : Line) (hw : w.length ≠ 1) :
    parse_direction_char w = .error .oneline := by
  rw [parse_direction_char.eq_def]
  split
  all_goals try rfl
  all_goals rename_i heq
  all_goals exact absurd (by simpa using congrArg List.length heq) hw

theorem parseOnelineTokens_err (w : Line) (ss : List Line)
    (hw : parse_direction_char w = .error .oneline) :
    ∃ e, parseOnelineTokens (w :: ss) = .error e := by
  rcases ss with _ | ⟨a1, _ | ⟨a2, _ | ⟨a3, _ | ⟨a4, _ | ⟨a5, _ |
    ⟨a6, _ | ⟨a7, _ | ⟨a8, rest⟩⟩⟩⟩⟩⟩⟩⟩
  all_goals first
    | exact ⟨.oneline, rfl⟩
    | (refine ⟨.oneline, ?_⟩
       simp only [parseOnelineTokens, hw]
       rfl)

theorem readAll_cons_blank (l : Line) (rest : List Line)
    (h : trim l = []) : readAll (l :: rest) = readAll rest := by
  rw [readAll.eq_def]
  simp_all

theorem readAll_cons_ok (l : Line) (rest : List Line) (d : Deal)
    (h : parse_oneline (trim l) = .ok d) :
    readAll (l :: rest) = .ok d :: readAll rest := by
  have hne : (trim l).isEmpty = false := by
    rcases he : trim l with _ | _
    · rw [he] at h
      have h0 : parse_oneline ([] : Line) = .error .oneline := rfl
      rw [h0] at h
      simp at h
    · rfl
  rw [readAll.eq_def]
  simp_all

/-! ## C3: the reader on a stream of oneline records -/

/-- C3: on an input consisting only of valid single-line dot-notation
records separated by blank lines, the reader emits exactly one item per
record (so the emitted count equals the record count), every item is `Ok`,
and each emitted item is exactly the result of `parse_oneline` on that
record's (trimmed) line. -/
theorem reader_oneline_stream (lines : List Line)
    (h : ∀ l ∈ lines, trim l = [] ∨ ∃ d, parse_oneline (trim l) = .ok d) :
    readAll lines =
      (lines.filter (fun l => !(trim l).isEmpty)).map
        (fun l => parse_oneline (trim l)) ∧
    ∀ r ∈ readAll lines, ∃ d, r = .ok d := by
  induction lines with
  | nil => exact ⟨rfl, by intro r hr; cases hr⟩
  | cons l rest ih =>
    obtain ⟨ih1, ih2⟩ := ih (fun x hx => h x (List.mem_cons_of_mem _ hx))
    rcases h l (List.mem_cons_self _ _) with hb | ⟨d, hd⟩
    · have hskip := readAll_cons_blank l rest hb
      have hfilter : (l :: rest).filter (fun l => !(trim l).isEmpty) =
          rest.filter (fun l => !(trim l).isEmpty) := by
        rw [List.filter_cons]
        simp [hb]
      rw [hskip, hfilter]
      exact ⟨ih1, ih2⟩
    · have hstep := readAll_cons_ok l rest d hd
      have hne : (trim l).isEmpty = false := by
        rcases he : trim l with _ | _
        · rw [he] at hd
          have h0 : parse_oneline ([] : Line) = .error .oneline := rfl
          rw [h0] at hd
          simp at hd
        · rfl
      have hfilter : (l :: rest).filter (fun l => !(trim l).isEmpty) =
          l :: rest.filter (fun l => !(trim l).isEmpty) := by
        rw [List.filter_cons]
        simp [hne]
      rw [hstep, hfilter]
      constructor
      · rw [List.map_cons, ih1, hd]
      · intro r hr
        rcases List.mem_cons.mp hr with rfl | hmem
        · exact ⟨d, rfl⟩
        · exact ih2 r hmem

/-- Witness for C3 at a two-record input separated by a blank line. -/
theorem reader_oneline_stream_witness :
    readAll [("n A.2.3.4 e K.5.6.7 s Q.8.9.T w J...").toList, [],
        ("n 2.3.4.5 e 6.7.8.9 s T.J.Q.K w A...").toList] =
      ([("n A.2.3.4 e K.5.6.7 s Q.8.9.T w J...").toList, [],
        ("n 2.3.4.5 e 6.7.8.9 s T.J.Q.K w A...").toList].filter
          (fun l => !(trim l).isEmpty)).map
        (fun l => parse_oneline (trim l)) ∧
    ∀ r ∈ readAll [("n A.2.3.4 e K.5.6.7 s Q.8.9.T w J...").toList, [],
        ("n 2.3.4.5 e 6.7.8.9 s T.J.Q.K w A...").toList], ∃ d, r = .ok d :=
  reader_oneline_stream _ (by
    intro l hl
    simp only [List.mem_cons, List.not_mem_nil, or_false] at hl
    rcases hl with rfl | rfl | rfl
    · exact Or.inr ⟨_, rfl⟩
    · exact Or.inl rfl
    · exact Or.inr ⟨_, rfl⟩)

/-! ## C7: banner lines are transparently skipped -/

/-- The statistics/banner line openings recognized in the spec: `Generated `,
`Produced `, `Initial `, `Time `. -/
def bannerLits : List Line :=
  [("Generated ").toList, ("Produced ").toList, ("Initial ").toList,
   ("Time ").toList]

theorem banner_case (w suf l : Line) (rest : List Line)
    (hl : trim l = w ++ (' ' :: suf))
    (hwne : w ≠ [])
    (hwchars : ∀ c ∈ w, c.isWhitespace = false)
    (hdir : parse_direction_char w = .error .oneline)
    (hhead : ∃ c w', w = c :: w' ∧ c ≠ '+' ∧ c.isDigit = false ∧
      c ≠ '.' ∧ c ≠ '[') :
    readAll (l :: rest) = readAll rest := by
  obtain ⟨c, w', hw, hplus, hdig, hdot, hbr⟩ := hhead
  have hcws : c.isWhitespace = false := by
    rw [hw] at hwchars
    exact hwchars c (List.mem_cons_self _ _)
  apply readAll_skip_line
  · rw [hl, hw]
    rfl
  · rw [hl, parse_oneline, splitWs_word_space _ _ hwne hwchars]
    exact parseOnelineTokens_err _ _ hdir
  · rw [hl, hw]
    have hne : ('[' == c) = false := beq_eq_false_iff_ne.mpr (Ne.symm hbr)
    simp [dealTagLit, List.isPrefixOf, hne]
  · rw [hl, hw]
    exact is_board_false_of_head c _ hcws hplus hdig hdot

/-- C7: a line whose trimmed text begins with one of the statistics/banner
openings never contributes an emitted deal and never yields an error item:
the reader's output on the remaining lines is unchanged, so interleaved
banner lines are transparent and never abort the sequence. -/
theorem reader_skips_banner_lines (l : Line) (rest : List Line)
    (h : ∃ p ∈ bannerLits, p.isPrefixOf (trim l) = true) :
    readAll (l :: rest) = readAll rest := by
  obtain ⟨p, hp, hpre⟩ := h
  obtain ⟨suf, hsuf⟩ := List.isPrefixOf_iff_prefix.mp hpre
  fin_cases hp
  · exact banner_case (("Generated").toList) suf l rest
      (by rw [← hsuf]; rfl) (by decide) (by decide) (by decide)
      ⟨'G', ("enerated").toList, rfl, by decide, by decide, by decide,
        by decide⟩
  · exact banner_case (("Produced").toList) suf l rest
      (by rw [← hsuf]; rfl) (by decide) (by decide) (by decide)
      ⟨'P', ("roduced").toList, rfl, by decide, by decide, by decide,
        by decide⟩
  · exact banner_case (("Initial").toList) suf l rest
      (by rw [← hsuf]; rfl) (by decide) (by decide) (by decide)
      ⟨'I', ("nitial").toList, rfl, by decide, by decide, by decide,
        by decide⟩
  · exact banner_case (("Time").toList) suf l rest
      (by rw [← hsuf]; rfl) (by decide) (by decide) (by decide)
      ⟨'T', ("ime").toList, rfl, by decide, by decide, by decide,
        by decide⟩

/-- Witness for C7: a concrete `Generated` statistics line ahead of a valid
record is transparent. -/
theorem reader_skips_banner_lines_witness :
    readAll [("Generated 100 hands").toList,
        ("n A.2.3.4 e K.5.6.7 s Q.8.9.T w J...").toList] =
      readAll [("n A.2.3.4 e K.5.6.7 s Q.8.9.T w J...").toList] :=
  reader_skips_banner_lines _ _
    ⟨("Generated ").toList, by decide, by decide⟩

/-! ## C4: outcome of the irrevocable 4-line printall pull -/

/-- C4 (amended): after a board-number header line triggers the pull of 4
body lines, a decode failure of the assembled 5-line block is surfaced to
the caller as an error item (no deal is emitted for it) and iteration
continues with the lines after the block; only reaching end-of-input before
all 4 body lines are available ends the sequence without emission and
without an error. -/
theorem reader_printall_block (l : Line)
    (h1 : (trim l).isEmpty = false)
    (h2 : ∃ e, parse_oneline (trim l) = .error e)
    (h3 : dealTagLit.isPrefixOf (trim l) = false)
    (h4 : is_board_number_line (trim l) = true) :
    (∀ short : List Line, short.length < 4 → readAll (l :: short) = []) ∧
    (∀ a b c d rest e, parse_printall [dummyHeader, a, b, c, d] = .error e →
      readAll (l :: a :: b :: c :: d :: rest) = .error e :: readAll rest) := by
  obtain ⟨e0, he0⟩ := h2
  constructor
  · intro short hshort
    rcases short with _ | ⟨a, _ | ⟨b, _ | ⟨c, _ | ⟨d, r2⟩⟩⟩⟩
    · rw [readAll.eq_def]
      simp_all
    · rw [readAll.eq_def]
      simp_all
    · rw [readAll.eq_def]
      simp_all
    · rw [readAll.eq_def]
      simp_all
    · simp at hshort
      omega
  · intro a b c d rest e hp
    rw [readAll.eq_def]
    simp_all

/-- The deal of the valid oneline record that follows the malformed block in
the C4 counterexample input. -/
def c4Deal : Deal :=
  match parse_oneline (("n A.2.3.4 e K.5.6.7 s Q.8.9.T w J...").toList) with
  | .ok d => d
  | .error _ => Deal.new

/-- Counterexample to C4 as stated: a board-number header followed by a
malformed 4-line block does NOT terminate the sequence silently — the block
failure is surfaced as an error item, and a valid record after the block is
still emitted. -/
theorem reader_printall_failure_counterexample :
    readAll [("   1.").toList, ("x").toList, [], [], [],
        ("n A.2.3.4 e K.5.6.7 s Q.8.9.T w J...").toList] =
      [.error .pbn, .ok c4Deal] := by decide

/-- Witness for the amended C4: truncation ends the sequence with no items;
a failing full block yields exactly one error item and iteration continues
(here with nothing after the block). -/
theorem reader_printall_block_witness :
    readAll [("   1.").toList, ("x").toList] = [] ∧
    readAll [("   1.").toList, ("x").toList, [], [], []] =
      .error .pbn :: readAll [] := by
  have h := reader_printall_block (("   1.").toList) (by decide)
    ⟨.oneline, by decide⟩ (by decide) (by decide)
  exact ⟨h.1 [("x").toList] (by decide),
    h.2 (("x").toList) [] [] [] [] .pbn (by decide)⟩

/-! ## Printall lemmas -/

theorem except_bind_ok {α β : Type} (a : α) (f : α → Except PError β) :
    (Except.ok a >>= f) = f a := rfl

theorem except_bind_err {α β : Type} (e : PError) (f : α → Except PError β) :
    ((Except.error e : Except PError α) >>= f) = Except.error e := rfl

/-- Success inversion for `parse_printall`: a successful parse exposes the
header, the 4 body lines, their row results, the assembled deal, and the
consumed-line count. -/
theorem parse_printall_ok_inv (lines : List Line) (deal : Deal) (k : Nat)
    (h : parse_printall lines = .ok (deal, k)) :
    ∃ header l1 l2 l3 l4 rest r1 r2 r3 r4,
      lines.drop ((lines.takeWhile (fun l => (trim l).isEmpty)).length) =
        header :: l1 :: l2 :: l3 :: l4 :: rest ∧
      headerOk header = true ∧
      parseBodyLine .Spades l1 = .ok r1 ∧
      parseBodyLine .Hearts l2 = .ok r2 ∧
      parseBodyLine .Diamonds l3 = .ok r3 ∧
      parseBodyLine .Clubs l4 = .ok r4 ∧
      deal = assembleDeal r1 r2 r3 r4 ∧
      k = (lines.takeWhile (fun l => (trim l).isEmpty)).length + 5 +
        trailingBlank rest := by
  rw [parse_printall] at h
  rcases hdrop : lines.drop
      ((lines.takeWhile (fun l => (trim l).isEmpty)).length) with
    _ | ⟨header, body⟩
  · rw [hdrop] at h
    simp at h
  · rw [hdrop] at h
    by_cases hok : headerOk header = true
    · simp only [hok, Bool.not_true, Bool.false_eq_true, if_false] at h
      rcases body with _ | ⟨l1, _ | ⟨l2, _ | ⟨l3, _ | ⟨l4, rest⟩⟩⟩⟩
      · rw [parsePrintallBody.eq_def] at h
        simp at h
      · rw [parsePrintallBody.eq_def] at h
        simp at h
      · rw [parsePrintallBody.eq_def] at h
        simp at h
      · rw [parsePrintallBody.eq_def] at h
        simp at h
      · rw [parsePrintallBody] at h
        rcases hr1 : parseBodyLine .Spades l1 with e1 | r1
        · rw [hr1, except_bind_err] at h
          exact Except.noConfusion h
        rcases hr2 : parseBodyLine .Hearts l2 with e2 | r2
        · rw [hr1, except_bind_ok, hr2, except_bind_err] at h
          exact Except.noConfusion h
        rcases hr3 : parseBodyLine .Diamonds l3 with e3 | r3
        · rw [hr1, except_bind_ok, hr2, except_bind_ok, hr3,
            except_bind_err] at h
          exact Except.noConfusion h
        rcases hr4 : parseBodyLine .Clubs l4 with e4 | r4
        · rw [hr1, except_bind_ok, hr2, except_bind_ok, hr3, except_bind_ok,
            hr4, except_bind_err] at h
          exact Except.noConfusion h
        rw [hr1, except_bind_ok, hr2, except_bind_ok, hr3, except_bind_ok,
          hr4, except_bind_ok] at h
        obtain ⟨hdeal, hk⟩ := Prod.mk.injEq .. |>.mp (Except.ok.inj h)
        exact ⟨header, l1, l2, l3, l4, rest, r1, r2, r3, r4, rfl, hok,
          hr1, hr2, hr3, hr4, hdeal.symm, hk.symm⟩
    · have hfalse : headerOk header = false := by
        cases hv : headerOk header
        · rfl
        · exact absurd hv hok
      simp only [hfalse, Bool.not_false, if_true] at h
      exact Except.noConfusion h

/-- Success construction for `parse_printall` with no leading blank lines. -/
theorem parse_printall_ok_of (header l1 l2 l3 l4 : Line) (rest : List Line)
    (r1 r2 r3 r4 : RowCards)
    (hheader : (trim header).isEmpty = false)
    (hok : headerOk header = true)
    (h1 : parseBodyLine .Spades l1 = .ok r1)
    (h2 : parseBodyLine .Hearts l2 = .ok r2)
    (h3 : parseBodyLine .Diamonds l3 = .ok r3)
    (h4 : parseBodyLine .Clubs l4 = .ok r4) :
    parse_printall (header :: l1 :: l2 :: l3 :: l4 :: rest) =
      .ok (assembleDeal r1 r2 r3 r4, 5 + trailingBlank rest) := by
  rw [parse_printall]
  have htake : (header :: l1 :: l2 :: l3 :: l4 :: rest).takeWhile
      (fun l => (trim l).isEmpty) = [] := by
    rw [List.takeWhile_cons]
    simp [hheader]
  rw [htake]
  simp only [List.length_nil, List.drop_zero, hok, Bool.not_true,
    Bool.false_eq_true, if_false, parsePrintallBody, h1, except_bind_ok,
    h2, h3, h4, Nat.zero_add]

/-! ## C5: consumed-line count of a successful `parse_printall` -/

/-- Counterexample to C5 as stated: with one leading blank line, a header,
four all-void body lines and a trailing blank line, `parse_printall`
succeeds, consumes 7 lines (neither 5 nor 6), and returns the empty deal
(0 cards), which is not complete. -/
theorem parse_printall_consumed_counterexample :
    parse_printall [[], ("   1.").toList, ("-").toList, ("-").toList,
        ("-").toList, ("-").toList, []] = .ok (Deal.new, 7) ∧
      ¬((7 : Nat) = 5 ∨ (7 : Nat) = 6) ∧
      (allDealCards Deal.new).length ≠ 52 := by decide

/-- C5 (amended): when `parse_printall` succeeds, the consumed-line count is
the number of leading blank lines it skipped, plus 5 (header and 4 body
lines), plus 1 exactly when a trailing blank separator line is present; the
returned deal holds whatever cards the block encodes, which need not form a
complete deal. -/
theorem parse_printall_consumed (lines : List Line) (deal : Deal) (k : Nat)
    (h : parse_printall lines = .ok (deal, k)) :
    k = (lines.takeWhile (fun l => (trim l).isEmpty)).length + 5 +
      trailingBlank (lines.drop
        ((lines.takeWhile (fun l => (trim l).isEmpty)).length + 5)) := by
  obtain ⟨header, l1, l2, l3, l4, rest, r1, r2, r3, r4, hdrop, _, _, _, _, _,
    _, hk⟩ := parse_printall_ok_inv lines deal k h
  have hrest : lines.drop
      ((lines.takeWhile (fun l => (trim l).isEmpty)).length + 5) = rest := by
    rw [← List.drop_drop, hdrop]
    rfl
  rw [hk, hrest]

/-- The spec's concrete printall block (header, 4 body lines, trailing
blank line). -/
def exPrintall : List Line :=
  [("   1.").toList,
   ("J 7 3               9 8                 A Q 5 4 2           K T 6").toList,
   ("3                   9 6 4 2             K J 8 7             A Q T 5").toList,
   ("K Q J T 9 8 5       7                   3 2                 A 6 4").toList,
   ("T 5                 9 8 7 4 3 2         A K                 Q J 6").toList,
   []]

/-- The deal decoded from `exPrintall`. -/
def exPrintallDeal : Deal :=
  match parse_printall exPrintall with
  | .ok r => r.1
  | .error _ => Deal.new

/-- Witness for the amended C5 at the spec's concrete block: 0 leading
blanks, a trailing blank, 6 lines consumed. -/
theorem parse_printall_consumed_witness :
    (6 : Nat) =
      (exPrintall.takeWhile (fun l => (trim l).isEmpty)).length + 5 +
      trailingBlank (exPrintall.drop
        ((exPrintall.takeWhile (fun l => (trim l).isEmpty)).length + 5)) :=
  parse_printall_consumed exPrintall exPrintallDeal 6 (by decide)

/-! ## C6: the failure conditions of `parse_printall` -/

/-- One trimmed column slot is acceptable when it is the void marker `-`,
is empty, or consists of recognizable rank characters only. -/
def goodSlot (col : Line) : Prop :=
  col = ['-'] ∨ col = [] ∨
    ∀ c ∈ (splitWs col).flatMap id, (Rank.from_char c).isSome = true

theorem decodeRanks_ok_iff (e : PError) (suit : Suit) (l : List Char) :
    (∃ v, decodeRanks e suit l = .ok v) ↔
      ∀ c ∈ l, (Rank.from_char c).isSome = true := by
  induction l with
  | nil =>
    constructor
    · intro _ c hc
      cases hc
    · intro _
      exact ⟨[], rfl⟩
  | cons c cs ih =>
    constructor
    · rintro ⟨v, hv⟩ x hx
      rw [decodeRanks] at hv
      split at hv
      · rename_i r hr
        rcases hd : decodeRanks e suit cs with e' | w
        · rw [hd, except_bind_err] at hv
          exact Except.noConfusion hv
        · rcases List.mem_cons.mp hx with rfl | hmem
          · rw [hr]
            rfl
          · exact (ih.mp ⟨w, hd⟩) x hmem
      · exact Except.noConfusion hv
    · intro hall
      rcases hr : Rank.from_char c with _ | r
      · have hc := hall c (List.mem_cons_self _ _)
        rw [hr] at hc
        exact absurd hc (by simp)
      · obtain ⟨w, hw⟩ := ih.mpr (fun x hx => hall x (List.mem_cons_of_mem _ hx))
        refine ⟨Card.new suit r :: w, ?_⟩
        rw [decodeRanks, hr, hw]
        rfl

theorem parseSlot_ok_iff (suit : Suit) (col : Line) :
    (∃ cs, parseSlot suit col = .ok cs) ↔ goodSlot col := by
  rw [parseSlot, goodSlot]
  by_cases hv : col = ['-'] ∨ col = []
  · rw [if_pos hv]
    constructor
    · intro _
      tauto
    · intro _
      exact ⟨[], rfl⟩
  · rw [if_neg hv, decodeRanks_ok_iff]
    tauto

theorem parseBodyLine_ok_iff (suit : Suit) (line : Line) :
    (∃ r, parseBodyLine suit line = .ok r) ↔
      ∀ j ∈ ([0, 1, 2, 3] : List Nat), goodSlot (columnSlice line j) := by
  constructor
  · rintro ⟨r, hr⟩ j hj
    rw [parseBodyLine] at hr
    rcases h0 : parseSlot suit (columnSlice line 0) with e0 | c0
    · rw [h0, except_bind_err] at hr
      exact Except.noConfusion hr
    rcases h1 : parseSlot suit (columnSlice line 1) with e1 | c1
    · rw [h0, except_bind_ok, h1, except_bind_err] at hr
      exact Except.noConfusion hr
    rcases h2 : parseSlot suit (columnSlice line 2) with e2 | c2
    · rw [h0, except_bind_ok, h1, except_bind_ok, h2, except_bind_err] at hr
      exact Except.noConfusion hr
    rcases h3 : parseSlot suit (columnSlice line 3) with e3 | c3
    · rw [h0, except_bind_ok, h1, except_bind_ok, h2, except_bind_ok, h3,
        except_bind_err] at hr
      exact Except.noConfusion hr
    fin_cases hj
    · exact (parseSlot_ok_iff suit _).mp ⟨c0, h0⟩
    · exact (parseSlot_ok_iff suit _).mp ⟨c1, h1⟩
    · exact (parseSlot_ok_iff suit _).mp ⟨c2, h2⟩
    · exact (parseSlot_ok_iff suit _).mp ⟨c3, h3⟩
  · intro hall
    obtain ⟨c0, h0⟩ := (parseSlot_ok_iff suit _).mpr (hall 0 (by simp))
    obtain ⟨c1, h1⟩ := (parseSlot_ok_iff suit _).mpr (hall 1 (by simp))
    obtain ⟨c2, h2⟩ := (parseSlot_ok_iff suit _).mpr (hall 2 (by simp))
    obtain ⟨c3, h3⟩ := (parseSlot_ok_iff suit _).mpr (hall 3 (by simp))
    exact ⟨(c0, c1, c2, c3), by
      rw [parseBodyLine, h0, except_bind_ok, h1, except_bind_ok, h2,
        except_bind_ok, h3, except_bind_ok]⟩

/-- C6: `parse_printall` succeeds exactly when, after the skipped leading
blank lines, (a) a header line is present whose trimmed text ends in `'.'`
with a leading non-negative integer, (b) all 4 body lines are present before
the input ends, and (c) every rank character of every non-void column slot
is recognized; a violation of any of the three yields a format error. -/
theorem parse_printall_conditions (lines : List Line) :
    (∃ r, parse_printall lines = .ok r) ↔
      ((∃ header body,
          lines.drop ((lines.takeWhile (fun l => (trim l).isEmpty)).length) =
            header :: body ∧ headerOk header = true) ∧
        4 ≤ (lines.drop
          ((lines.takeWhile (fun l => (trim l).isEmpty)).length + 1)).length ∧
        ∀ l ∈ (lines.drop
          ((lines.takeWhile (fun l => (trim l).isEmpty)).length + 1)).take 4,
          ∀ j ∈ ([0, 1, 2, 3] : List Nat), goodSlot (columnSlice l j)) := by
  constructor
  · rintro ⟨⟨deal, k⟩, h⟩
    obtain ⟨header, l1, l2, l3, l4, rest, r1, r2, r3, r4, hdrop, hok, hr1,
      hr2, hr3, hr4, _, _⟩ := parse_printall_ok_inv lines deal k h
    have hbody : lines.drop
        ((lines.takeWhile (fun l => (trim l).isEmpty)).length + 1) =
        l1 :: l2 :: l3 :: l4 :: rest := by
      rw [← List.drop_drop, hdrop]
      rfl
    refine ⟨⟨header, _, hdrop, hok⟩, ?_, ?_⟩
    · rw [hbody]
      simp
    · rw [hbody]
      intro l hl
      have hl4 : l = l1 ∨ l = l2 ∨ l = l3 ∨ l = l4 := by
        simpa using hl
      rcases hl4 with rfl | rfl | rfl | rfl
      · exact (parseBodyLine_ok_iff .Spades l).mp ⟨r1, hr1⟩
      · exact (parseBodyLine_ok_iff .Hearts l).mp ⟨r2, hr2⟩
      · exact (parseBodyLine_ok_iff .Diamonds l).mp ⟨r3, hr3⟩
      · exact (parseBodyLine_ok_iff .Clubs l).mp ⟨r4, hr4⟩
  · rintro ⟨⟨header, body, hdrop, hok⟩, hlen, hslots⟩
    have hbody : lines.drop
        ((lines.takeWhile (fun l => (trim l).isEmpty)).length + 1) = body := by
      rw [← List.drop_drop, hdrop]
      rfl
    rw [hbody] at hlen hslots
    rcases body with _ | ⟨l1, _ | ⟨l2, _ | ⟨l3, _ | ⟨l4, rest⟩⟩⟩⟩
    · simp at hlen
    · simp at hlen
    · simp at hlen
    · simp at hlen
    · obtain ⟨r1, hr1⟩ := (parseBodyLine_ok_iff .Spades l1).mpr
        (fun j hj => hslots l1 (by simp) j hj)
      obtain ⟨r2, hr2⟩ := (parseBodyLine_ok_iff .Hearts l2).mpr
        (fun j hj => hslots l2 (by simp) j hj)
      obtain ⟨r3, hr3⟩ := (parseBodyLine_ok_iff .Diamonds l3).mpr
        (fun j hj => hslots l3 (by simp) j hj)
      obtain ⟨r4, hr4⟩ := (parseBodyLine_ok_iff .Clubs l4).mpr
        (fun j hj => hslots l4 (by simp) j hj)
      refine ⟨(assembleDeal r1 r2 r3 r4,
        (lines.takeWhile (fun l => (trim l).isEmpty)).length + 5 +
          trailingBlank rest), ?_⟩
      rw [parse_printall, hdrop]
      simp only [hok, Bool.not_true, Bool.false_eq_true, if_false,
        parsePrintallBody, hr1, except_bind_ok, hr2, hr3, hr4]

/-! ## C2: round trip of `format_printall` through `parse_printall` -/

/-- One cell followed by its own column padding. -/
def cellPad (cs : List Card) : Line :=
  cellChars cs ++ List.replicate (2 * (10 - cellCount cs)) ' '

theorem formatSuitLine_eq (deal : Deal) (suit : Suit) :
    formatSuitLine deal suit =
      cellPad (sortDesc ((deal.hand .North).cards_in_suit suit)) ++
      (cellPad (sortDesc ((deal.hand .East).cards_in_suit suit)) ++
      (cellPad (sortDesc ((deal.hand .South).cards_in_suit suit)) ++
      cellChars (sortDesc ((deal.hand .West).cards_in_suit suit)))) := by
  simp [formatSuitLine, Direction.ALL, cellPad, List.append_assoc]

theorem cellChars_length (cs : List Card) :
    (cellChars cs).length = 2 * cellCount cs := by
  rw [cellChars, cellCount]
  by_cases h : cs.isEmpty
  · simp [h]
  · rw [if_neg h, if_neg h]
    induction cs with
    | nil => rfl
    | cons c cs ih =>
      by_cases hcs : cs.isEmpty
      · rw [List.isEmpty_iff] at hcs
        subst hcs
        rfl
      · simp only [List.flatMap_cons, List.length_append, List.length_cons,
          List.length_nil, ih hcs]
        simp [Nat.mul_succ]
        omega

theorem cellCount_le (cs : List Card) (h : cs.length ≤ 10) :
    cellCount cs ≤ 10 := by
  rw [cellCount]
  by_cases he : cs.isEmpty
  · simp [he]
  · rw [if_neg he]
    exact h

theorem cellCount_pos (cs : List Card) : 1 ≤ cellCount cs := by
  rw [cellCount]
  by_cases he : cs.isEmpty
  · simp [he]
  · rw [if_neg he]
    rw [List.isEmpty_iff] at he
    exact List.length_pos.mpr he

theorem cellPad_length (cs : List Card) (h : cs.length ≤ 10) :
    (cellPad cs).length = 20 := by
  rw [cellPad, List.length_append, cellChars_length, List.length_replicate]
  have h1 := cellCount_le cs h
  omega

theorem cellChars_length_le (cs : List Card) (h : cs.length ≤ 10) :
    (cellChars cs).length ≤ 20 := by
  rw [cellChars_length]
  have := cellCount_le cs h
  omega

theorem cellChars_length_pos (cs : List Card) :
    2 ≤ (cellChars cs).length := by
  rw [cellChars_length]
  have := cellCount_pos cs
  omega

theorem insertDesc_perm (c : Card) (l : List Card) :
    List.Perm (insertDesc c l) (c :: l) := by
  induction l with
  | nil => exact List.Perm.refl _
  | cons d ds ih =>
    rw [insertDesc]
    by_cases h : d.rank.val ≤ c.rank.val
    · rw [if_pos h]
    · rw [if_neg h]
      exact (ih.cons d).trans (List.Perm.swap c d ds)

theorem sortDesc_perm (cs : List Card) : List.Perm (sortDesc cs) cs := by
  induction cs with
  | nil => exact List.Perm.refl _
  | cons c cs ih =>
    rw [sortDesc]
    exact (insertDesc_perm c (sortDesc cs)).trans (ih.cons c)

theorem rank_to_char_not_ws (r : Rank) :
    (Rank.to_char r).isWhitespace = false := by
  cases r <;> rfl

theorem rank_to_char_ne_dash (r : Rank) : Rank.to_char r ≠ '-' := by
  cases r <;> decide

theorem rank_from_to_char (r : Rank) :
    Rank.from_char (Rank.to_char r) = some r := by
  cases r <;> rfl

theorem splitWsAux_all_ws (w : List Char) (hw : ∀ c ∈ w, c.isWhitespace = true) :
    ∀ acc, splitWsAux w acc = splitWsAux [] acc := by
  induction w with
  | nil => intro acc; rfl
  | cons c cs ih =>
    intro acc
    have hc : c.isWhitespace = true := hw c (List.mem_cons_self _ _)
    have ih' := ih (fun x hx => hw x (List.mem_cons_of_mem _ hx))
    have hnil : ∀ a : Line, splitWsAux [] a =
        if a.isEmpty then [] else [a.reverse] := fun _ => rfl
    conv_lhs => rw [splitWsAux]
    rw [hc]
    simp only [if_true]
    by_cases ha : acc.isEmpty
    · rw [if_pos ha, ih' [], hnil, hnil]
      simp [ha]
    · rw [if_neg ha, ih' [], hnil, hnil]
      simp [ha]

theorem splitWsAux_append_ws (z w : List Char)
    (hw : ∀ c ∈ w, c.isWhitespace = true) :
    ∀ acc, splitWsAux (z ++ w) acc = splitWsAux z acc := by
  induction z with
  | nil =>
    intro acc
    rw [List.nil_append]
    exact splitWsAux_all_ws w hw acc
  | cons c cs ih =>
    intro acc
    rw [List.cons_append]
    conv_lhs => rw [splitWsAux]
    conv_rhs => rw [splitWsAux]
    cases hc : c.isWhitespace with
    | true =>
      simp only [if_true]
      by_cases ha : acc.isEmpty
      · rw [if_pos ha, if_pos ha, ih []]
      · rw [if_neg ha, if_neg ha, ih []]
    | false =>
      simp only [Bool.false_eq_true, if_false]
      exact ih (c :: acc)

theorem splitWs_dropWhile (l : List Char) :
    splitWs (l.dropWhile Char.isWhitespace) = splitWs l := by
  induction l with
  | nil => rfl
  | cons c cs ih =>
    by_cases hc : c.isWhitespace
    · rw [List.dropWhile_cons, if_pos hc, ih]
      conv_rhs => rw [splitWs, splitWsAux]
      rw [hc]
      simp only [if_true]
      rfl
    · rw [List.dropWhile_cons, if_neg hc]

theorem splitWs_trim (l : List Char) : splitWs (trim l) = splitWs l := by
  rw [trim]
  have hdec : l.dropWhile Char.isWhitespace =
      ((l.dropWhile Char.isWhitespace).reverse.dropWhile
        Char.isWhitespace).reverse ++
      ((l.dropWhile Char.isWhitespace).reverse.takeWhile
        Char.isWhitespace).reverse := by
    rw [← List.reverse_append, List.takeWhile_append_dropWhile,
      List.reverse_reverse]
  rw [← splitWs_dropWhile l]
  conv_rhs => rw [hdec]
  rw [splitWs, splitWs, splitWsAux_append_ws]
  intro c hc
  rw [List.mem_reverse] at hc
  exact List.mem_takeWhile_imp hc

theorem splitWs_replicate_space (k : Nat) :
    splitWs (List.replicate k ' ') = [] := by
  rw [splitWs, splitWsAux_all_ws]
  · rfl
  · intro c hc
    rw [List.eq_of_mem_replicate hc]
    rfl

theorem splitWs_cell (cs : List Card) (k : Nat) :
    splitWs (cs.flatMap (fun c => [c.rank.to_char, ' ']) ++
        List.replicate k ' ') =
      cs.map (fun c => [c.rank.to_char]) := by
  induction cs with
  | nil =>
    rw [List.flatMap_nil, List.nil_append, splitWs_replicate_space,
      List.map_nil]
  | cons c cs ih =>
    have hshape : (c :: cs).flatMap (fun c => [c.rank.to_char, ' ']) ++
        List.replicate k ' ' =
        [c.rank.to_char] ++
          (' ' :: (cs.flatMap (fun c => [c.rank.to_char, ' ']) ++
            List.replicate k ' ')) := by
      simp
    rw [hshape, splitWs_word_space _ _ (by simp)
      (by intro x hx; rw [List.mem_singleton] at hx; rw [hx];
          exact rank_to_char_not_ws c.rank), ih, List.map_cons]

theorem dropWhile_ws_replicate (k : Nat) :
    (List.replicate k ' ').dropWhile Char.isWhitespace = [] := by
  induction k with
  | zero => rfl
  | succ k ih => rw [List.replicate_succ, List.dropWhile_cons]; simp [ih]

theorem trim_append_spaces (x : Line) (k : Nat) :
    trim (x ++ List.replicate k ' ') = trim x := by
  rw [trim, trim]
  by_cases h : (x.dropWhile Char.isWhitespace).isEmpty
  · rw [List.dropWhile_append, if_pos h, dropWhile_ws_replicate]
    rw [List.isEmpty_iff] at h
    rw [h]
  · rw [List.dropWhile_append, if_neg h, List.reverse_append,
      List.reverse_replicate, List.dropWhile_append,
      if_pos (by rw [dropWhile_ws_replicate]; rfl)]

theorem decodeRanks_map (e : PError) (suit : Suit) (cs : List Card)
    (hsuit : ∀ c ∈ cs, c.suit = suit) :
    decodeRanks e suit (cs.map (fun c => c.rank.to_char)) = .ok cs := by
  induction cs with
  | nil => rfl
  | cons c cs ih =>
    rw [List.map_cons, decodeRanks, rank_from_to_char,
      ih (fun x hx => hsuit x (List.mem_cons_of_mem _ hx))]
    have hc : Card.new suit c.rank = c := by
      have hs := hsuit c (List.mem_cons_self _ _)
      rcases c with ⟨cs', cr⟩
      rw [Card.new]
      simp only at hs
      rw [hs]
    conv_rhs => rw [← hc]
    rfl

theorem flatMap_id_map_singleton {α β : Type} (l : List α) (f : α → β) :
    ((l.map (fun x => [f x])).flatMap id) = l.map f := by
  induction l <;> simp_all

theorem parseSlot_cellPad (suit : Suit) (cs : List Card)
    (hsuit : ∀ c ∈ cs, c.suit = suit) (k : Nat) :
    parseSlot suit (trim (cellChars cs ++ List.replicate k ' ')) = .ok cs := by
  by_cases he : cs.isEmpty
  · rw [List.isEmpty_iff] at he
    subst he
    have hcell : cellChars [] = ['-', ' '] := rfl
    rw [hcell, trim_append_spaces]
    have htr : trim ['-', ' '] = ['-'] := by decide
    rw [htr, parseSlot, if_pos (Or.inl rfl)]
  · have hcell : cellChars cs = cs.flatMap (fun c => [c.rank.to_char, ' ']) := by
      rw [cellChars, if_neg he]
    have hcs : cs ≠ [] := fun hn => he (by rw [hn]; rfl)
    have htokens : splitWs (trim (cellChars cs ++ List.replicate k ' ')) =
        cs.map (fun c => [c.rank.to_char]) := by
      rw [splitWs_trim, hcell, splitWs_cell]
    rw [parseSlot]
    rw [if_neg ?_, htokens, flatMap_id_map_singleton,
      decodeRanks_map .pbn suit cs hsuit]
    rintro (h1 | h2)
    · rw [h1] at htokens
      rcases cs with _ | ⟨c0, cs'⟩
      · exact hcs rfl
      · rw [List.map_cons] at htokens
        have hd : splitWs ['-'] = [['-']] := rfl
        rw [hd] at htokens
        have := List.head_eq_of_cons_eq htokens
        have hchar : '-' = c0.rank.to_char := List.head_eq_of_cons_eq this
        exact rank_to_char_ne_dash c0.rank hchar.symm
    · rw [h2] at htokens
      have hd : splitWs ([] : Line) = [] := rfl
      rw [hd] at htokens
      exact hcs (List.map_eq_nil_iff.mp htokens.symm)

theorem parseBodyLine_format (deal : Deal) (suit : Suit)
    (hfit : ∀ dir, ((deal.hand dir).cards_in_suit suit).length ≤ 10) :
    parseBodyLine suit (formatSuitLine deal suit) =
      .ok (sortDesc ((deal.hand .North).cards_in_suit suit),
           sortDesc ((deal.hand .East).cards_in_suit suit),
           sortDesc ((deal.hand .South).cards_in_suit suit),
           sortDesc ((deal.hand .West).cards_in_suit suit)) := by
  have hsuitOf : ∀ dir, ∀ x ∈ sortDesc ((deal.hand dir).cards_in_suit suit),
      x.suit = suit := by
    intro dir x hx
    have hx2 : x ∈ (deal.hand dir).cards_in_suit suit :=
      (sortDesc_perm _).mem_iff.mp hx
    rw [Hand.cards_in_suit, List.mem_filter] at hx2
    exact beq_iff_eq.mp hx2.2
  have hlenOf : ∀ dir,
      (sortDesc ((deal.hand dir).cards_in_suit suit)).length ≤ 10 := by
    intro dir
    rw [(sortDesc_perm _).length_eq]
    exact hfit dir
  set a := sortDesc ((deal.hand .North).cards_in_suit suit) with hadef
  set b := sortDesc ((deal.hand .East).cards_in_suit suit) with hbdef
  set c := sortDesc ((deal.hand .South).cards_in_suit suit) with hcdef
  set d := sortDesc ((deal.hand .West).cards_in_suit suit) with hddef
  have hla : (cellPad a).length = 20 := cellPad_length a (hlenOf .North)
  have hlb : (cellPad b).length = 20 := cellPad_length b (hlenOf .East)
  have hlc : (cellPad c).length = 20 := cellPad_length c (hlenOf .South)
  have hld : (cellChars d).length ≤ 20 := cellChars_length_le d (hlenOf .West)
  have hld2 : 2 ≤ (cellChars d).length := cellChars_length_pos d
  have hline : formatSuitLine deal suit =
      cellPad a ++ (cellPad b ++ (cellPad c ++ cellChars d)) :=
    formatSuitLine_eq deal suit
  have hlen : (formatSuitLine deal suit).length =
      60 + (cellChars d).length := by
    rw [hline]
    simp [hla, hlb, hlc]
    omega
  have hc0 : columnSlice (formatSuitLine deal suit) 0 = trim (cellPad a) := by
    rw [columnSlice, COLUMN_WIDTH]
    rw [if_pos (by omega)]
    rw [List.drop_zero, hline, List.take_left' hla]
  have hc1 : columnSlice (formatSuitLine deal suit) 1 = trim (cellPad b) := by
    rw [columnSlice, COLUMN_WIDTH]
    rw [if_pos (by omega)]
    rw [hline]
    rw [show (1 : Nat) * 20 = 20 from rfl, List.drop_left' hla,
      List.take_left' hlb]
  have hc2 : columnSlice (formatSuitLine deal suit) 2 = trim (cellPad c) := by
    rw [columnSlice, COLUMN_WIDTH]
    rw [if_pos (by omega)]
    rw [hline]
    have hgroup : cellPad a ++ (cellPad b ++ (cellPad c ++ cellChars d)) =
        (cellPad a ++ cellPad b) ++ (cellPad c ++ cellChars d) := by
      rw [List.append_assoc]
    rw [hgroup]
    rw [show (2 : Nat) * 20 = 40 from rfl,
      List.drop_left' (by rw [List.length_append, hla, hlb]),
      List.take_left' hlc]
  have hc3 : columnSlice (formatSuitLine deal suit) 3 = trim (cellChars d) := by
    rw [columnSlice, COLUMN_WIDTH]
    rw [if_pos (by omega)]
    rw [hline]
    have hgroup : cellPad a ++ (cellPad b ++ (cellPad c ++ cellChars d)) =
        (cellPad a ++ (cellPad b ++ cellPad c)) ++ cellChars d := by
      simp [List.append_assoc]
    rw [hgroup]
    rw [show (3 : Nat) * 20 = 60 from rfl,
      List.drop_left' (by simp [hla, hlb, hlc]),
      List.take_of_length_le hld]
  have hs0 : parseSlot suit (trim (cellPad a)) = .ok a :=
    parseSlot_cellPad suit a (hsuitOf .North) _
  have hs1 : parseSlot suit (trim (cellPad b)) = .ok b :=
    parseSlot_cellPad suit b (hsuitOf .East) _
  have hs2 : parseSlot suit (trim (cellPad c)) = .ok c :=
    parseSlot_cellPad suit c (hsuitOf .South) _
  have hs3 : parseSlot suit (trim (cellChars d)) = .ok d := by
    have hz : cellChars d ++ List.replicate 0 ' ' = cellChars d :=
      List.append_nil _
    rw [← hz]
    exact parseSlot_cellPad suit d (hsuitOf .West) 0
  rw [parseBodyLine, hc0, hs0, except_bind_ok, hc1, hs1, except_bind_ok,
    hc2, hs2, except_bind_ok, hc3, hs3, except_bind_ok]

theorem natDigitsAux_congr (n : Nat) : ∀ f1 f2, n < f1 → n < f2 →
    natDigitsAux f1 n = natDigitsAux f2 n := by
  induction n using Nat.strong_induction_on with
  | _ n ih =>
    intro f1 f2 h1 h2
    rcases f1 with _ | f1'
    · omega
    rcases f2 with _ | f2'
    · omega
    rw [natDigitsAux, natDigitsAux]
    by_cases hn : n < 10
    · rw [if_pos hn, if_pos hn]
    · rw [if_neg hn, if_neg hn]
      have hd : n / 10 < n := Nat.div_lt_self (by omega) (by omega)
      rw [ih (n / 10) hd f1' f2' (by omega) (by omega)]

theorem natDigits_unfold (n : Nat) :
    natDigits n = if n < 10 then [Char.ofNat (48 + n)]
      else natDigits (n / 10) ++ [Char.ofNat (48 + n % 10)] := by
  rw [natDigits, natDigitsAux]
  by_cases h : n < 10
  · rw [if_pos h, if_pos h]
  · rw [if_neg h, if_neg h, natDigits]
    have hd : n / 10 < n := Nat.div_lt_self (by omega) (by omega)
    rw [natDigitsAux_congr (n / 10) n (n / 10 + 1) hd (by omega)]

theorem digitChar_props (d : Nat) (h : d < 10) :
    (Char.ofNat (48 + d)).isDigit = true ∧
    (Char.ofNat (48 + d)).isWhitespace = false ∧
    Char.ofNat (48 + d) ≠ '.' ∧ Char.ofNat (48 + d) ≠ '+' ∧
    (Char.ofNat (48 + d)).toNat = 48 + d := by
  interval_cases d <;> decide

theorem natDigits_chars (n : Nat) : ∀ c ∈ natDigits n,
    c.isDigit = true ∧ c.isWhitespace = false ∧ c ≠ '.' ∧ c ≠ '+' := by
  induction n using Nat.strong_induction_on with
  | _ n ih =>
    rw [natDigits_unfold]
    by_cases h : n < 10
    · rw [if_pos h]
      intro c hc
      rw [List.mem_singleton] at hc
      subst hc
      have := digitChar_props n h
      tauto
    · rw [if_neg h]
      intro c hc
      rcases List.mem_append.mp hc with h1 | h2
      · exact ih (n / 10) (Nat.div_lt_self (by omega) (by omega)) c h1
      · rw [List.mem_singleton] at h2
        subst h2
        have := digitChar_props (n % 10) (Nat.mod_lt n (by omega))
        tauto

theorem natDigits_ne_nil (n : Nat) : natDigits n ≠ [] := by
  rw [natDigits_unfold]
  by_cases h : n < 10
  · rw [if_pos h]
    simp
  · rw [if_neg h]
    simp

theorem foldl_natDigits (n : Nat) : ∀ a0 : Nat,
    (natDigits n).foldl (fun a c => a * 10 + (c.toNat - 48)) a0 =
      a0 * 10 ^ (natDigits n).length + n := by
  induction n using Nat.strong_induction_on with
  | _ n ih =>
    intro a0
    rw [natDigits_unfold]
    by_cases h : n < 10
    · rw [if_pos h]
      simp only [List.foldl_cons, List.foldl_nil, List.length_cons,
        List.length_nil]
      rw [(digitChar_props n h).2.2.2.2, pow_one]
      omega
    · rw [if_neg h]
      have hd : n / 10 < n := Nat.div_lt_self (by omega) (by omega)
      rw [List.foldl_append, List.length_append, ih (n / 10) hd a0]
      simp only [List.foldl_cons, List.foldl_nil, List.length_cons,
        List.length_nil]
      rw [(digitChar_props (n % 10) (Nat.mod_lt n (by omega))).2.2.2.2]
      have hsub : 48 + n % 10 - 48 = n % 10 := by omega
      rw [hsub]
      have hL : (10 : Nat) ^ ((natDigits (n / 10)).length + (0 + 1)) =
          10 ^ (natDigits (n / 10)).length * 10 := by
        rw [Nat.zero_add, pow_succ]
      rw [hL]
      have hdm : n / 10 * 10 + n % 10 = n := by
        have := Nat.div_add_mod n 10
        omega
      calc (a0 * 10 ^ (natDigits (n / 10)).length + n / 10) * 10 + n % 10
          = a0 * (10 ^ (natDigits (n / 10)).length * 10) +
            (n / 10 * 10 + n % 10) := by ring
        _ = a0 * (10 ^ (natDigits (n / 10)).length * 10) + n := by rw [hdm]

theorem parseUsize_natDigits (n : Nat) (h : n < 2 ^ 64) :
    parseUsize (natDigits n) = some n := by
  obtain ⟨c, rest, hcons⟩ : ∃ c rest, natDigits n = c :: rest := by
    rcases hd : natDigits n with _ | ⟨c, rest⟩
    · exact absurd hd (natDigits_ne_nil n)
    · exact ⟨c, rest, rfl⟩
  have hch := natDigits_chars n
  have hplus : ¬ ((natDigits n).head? = some '+') := by
    rw [hcons]
    simp only [List.head?_cons, Option.some.injEq]
    exact (hch c (hcons ▸ List.mem_cons_self c rest)).2.2.2
  have hcond : ¬ (natDigits n = [] ∨
      ¬ ((natDigits n).all Char.isDigit = true)) := by
    rintro (h1 | h2)
    · exact natDigits_ne_nil n h1
    · refine h2 ?_
      rw [List.all_eq_true]
      intro c' hc'
      exact (hch c' hc').1
  rw [parseUsize, if_neg hplus, if_neg hcond, foldl_natDigits n 0,
    Nat.zero_mul, Nat.zero_add, if_pos h]

theorem trim_all_not_ws (x : Line) (hx : ∀ c ∈ x, c.isWhitespace = false) :
    trim x = x := by
  rw [trim]
  have h1 : x.dropWhile Char.isWhitespace = x := by
    rcases x with _ | ⟨c, cs⟩
    · rfl
    · rw [List.dropWhile_cons, hx c (List.mem_cons_self _ _)]
      simp
  rw [h1]
  have h2 : x.reverse.dropWhile Char.isWhitespace = x.reverse := by
    rcases hr : x.reverse with _ | ⟨c, cs⟩
    · rfl
    · rw [List.dropWhile_cons,
        hx c (by rw [← List.mem_reverse, hr]; exact List.mem_cons_self _ _)]
      simp
  rw [h2, List.reverse_reverse]

theorem trim_headerLine (n : Nat) :
    trim (headerLine n) = natDigits n ++ ['.'] := by
  obtain ⟨c, rest, hcons⟩ : ∃ c rest, natDigits n = c :: rest := by
    rcases hd : natDigits n with _ | ⟨c, rest⟩
    · exact absurd hd (natDigits_ne_nil n)
    · exact ⟨c, rest, rfl⟩
  have hch := natDigits_chars n
  have h1 : (headerLine n).dropWhile Char.isWhitespace =
      natDigits n ++ ['.'] := by
    rw [headerLine, List.append_assoc, List.dropWhile_append,
      if_pos (by rw [dropWhile_ws_replicate]; rfl), hcons,
      List.cons_append, List.dropWhile_cons,
      (hch c (hcons ▸ List.mem_cons_self c rest)).2.1]
    simp
  rw [trim, h1, List.reverse_append]
  have h2 : (['.'].reverse ++ (natDigits n).reverse).dropWhile
      Char.isWhitespace = '.' :: (natDigits n).reverse := by
    rfl
  rw [h2]
  simp

theorem headerOk_headerLine (n : Nat) (h : n < 2 ^ 64) :
    headerOk (headerLine n) = true := by
  rw [headerOk, trim_headerLine]
  simp only [Bool.and_eq_true, beq_iff_eq]
  constructor
  · rw [List.getLast?_concat]
  · have hdots : trimEndDots (natDigits n ++ ['.']) = natDigits n := by
      rw [trimEndDots, List.reverse_append]
      have h1 : (['.'].reverse ++ (natDigits n).reverse).dropWhile
          (fun c => c = '.') = (natDigits n).reverse.dropWhile
          (fun c => c = '.') := by
        rfl
      rw [h1]
      have h2 : (natDigits n).reverse.dropWhile (fun c => c = '.') =
          (natDigits n).reverse := by
        rcases hr : (natDigits n).reverse with _ | ⟨c, cs⟩
        · rfl
        · rw [List.dropWhile_cons]
          have hc : c ∈ natDigits n := by
            rw [← List.mem_reverse, hr]
            exact List.mem_cons_self _ _
          simp [(natDigits_chars n c hc).2.2.1]
      rw [h2, List.reverse_reverse]
    rw [hdots, trim_all_not_ws _ (fun c hc => (natDigits_chars n c hc).2.1),
      parseUsize_natDigits n h]
    rfl

theorem assembleDeal_hand_north (r1 r2 r3 r4 : RowCards) :
    ((assembleDeal r1 r2 r3 r4).hand .North).cards =
      r1.1 ++ r2.1 ++ r3.1 ++ r4.1 := rfl

theorem assembleDeal_hand_east (r1 r2 r3 r4 : RowCards) :
    ((assembleDeal r1 r2 r3 r4).hand .East).cards =
      r1.2.1 ++ r2.2.1 ++ r3.2.1 ++ r4.2.1 := rfl

theorem assembleDeal_hand_south (r1 r2 r3 r4 : RowCards) :
    ((assembleDeal r1 r2 r3 r4).hand .South).cards =
      r1.2.2.1 ++ r2.2.2.1 ++ r3.2.2.1 ++ r4.2.2.1 := rfl

theorem assembleDeal_hand_west (r1 r2 r3 r4 : RowCards) :
    ((assembleDeal r1 r2 r3 r4).hand .West).cards =
      r1.2.2.2 ++ r2.2.2.2 ++ r3.2.2.2 ++ r4.2.2.2 := rfl

theorem hand_mem_suits (h : Hand) (c : Card) :
    (c ∈ sortDesc (h.cards_in_suit .Spades) ∨
     c ∈ sortDesc (h.cards_in_suit .Hearts) ∨
     c ∈ sortDesc (h.cards_in_suit .Diamonds) ∨
     c ∈ sortDesc (h.cards_in_suit .Clubs)) ↔ c ∈ h.cards := by
  simp only [(sortDesc_perm _).mem_iff, Hand.cards_in_suit, List.mem_filter,
    beq_iff_eq]
  constructor
  · rintro (⟨h1, _⟩ | ⟨h1, _⟩ | ⟨h1, _⟩ | ⟨h1, _⟩) <;> exact h1
  · intro hc
    cases hs : c.suit
    · exact Or.inl ⟨hc, rfl⟩
    · exact Or.inr (Or.inl ⟨hc, rfl⟩)
    · exact Or.inr (Or.inr (Or.inl ⟨hc, rfl⟩))
    · exact Or.inr (Or.inr (Or.inr ⟨hc, rfl⟩))

/-- C2 (amended): for every deal in which no hand holds more than 10 cards
of any one suit (so every cell fits its fixed 20-character column) and every
board number representable as a `usize`, decoding the column-layout text
produced by `format_printall` succeeds, consumes all 6 produced lines, and
yields a deal with exactly the same per-direction card sets (hence the same
per-suit sets) as the original. -/
theorem format_printall_roundtrip (deal : Deal) (n : Nat) (hn : n < 2 ^ 64)
    (hfit : ∀ dir suit, ((deal.hand dir).cards_in_suit suit).length ≤ 10) :
    ∃ deal', parse_printall (format_printall deal n) = .ok (deal', 6) ∧
      ∀ (dir : Direction) (c : Card),
        c ∈ (deal'.hand dir).cards ↔ c ∈ (deal.hand dir).cards := by
  have hb1 := parseBodyLine_format deal .Spades (fun dir => hfit dir .Spades)
  have hb2 := parseBodyLine_format deal .Hearts (fun dir => hfit dir .Hearts)
  have hb3 := parseBodyLine_format deal .Diamonds
    (fun dir => hfit dir .Diamonds)
  have hb4 := parseBodyLine_format deal .Clubs (fun dir => hfit dir .Clubs)
  have hhead_ne : (trim (headerLine n)).isEmpty = false := by
    rw [trim_headerLine]
    simp
  have hform : format_printall deal n =
      headerLine n :: formatSuitLine deal .Spades ::
        formatSuitLine deal .Hearts :: formatSuitLine deal .Diamonds ::
        formatSuitLine deal .Clubs :: [[]] := by
    rw [format_printall]
    rfl
  have hparse := parse_printall_ok_of (headerLine n)
    (formatSuitLine deal .Spades) (formatSuitLine deal .Hearts)
    (formatSuitLine deal .Diamonds) (formatSuitLine deal .Clubs) [[]]
    _ _ _ _ hhead_ne (headerOk_headerLine n hn) hb1 hb2 hb3 hb4
  rw [hform]
  refine ⟨_, hparse, ?_⟩
  intro dir c
  cases dir with
  | North =>
    rw [assembleDeal_hand_north]
    simp only [List.mem_append, or_assoc]
    exact hand_mem_suits (deal.hand .North) c
  | East =>
    rw [assembleDeal_hand_east]
    simp only [List.mem_append, or_assoc]
    exact hand_mem_suits (deal.hand .East) c
  | South =>
    rw [assembleDeal_hand_south]
    simp only [List.mem_append, or_assoc]
    exact hand_mem_suits (deal.hand .South) c
  | West =>
    rw [assembleDeal_hand_west]
    simp only [List.mem_append, or_assoc]
    exact hand_mem_suits (deal.hand .West) c

/-- A deal whose North hand holds 11 spades: the spade cell then overflows
its fixed 20-character column. -/
def c2BadDeal : Deal :=
  Deal.new.set_hand .North ⟨[⟨.Spades, .Ace⟩, ⟨.Spades, .King⟩,
    ⟨.Spades, .Queen⟩, ⟨.Spades, .Jack⟩, ⟨.Spades, .Ten⟩, ⟨.Spades, .Nine⟩,
    ⟨.Spades, .Eight⟩, ⟨.Spades, .Seven⟩, ⟨.Spades, .Six⟩, ⟨.Spades, .Five⟩,
    ⟨.Spades, .Four⟩]⟩

/-- Counterexample to C2 as stated: for the deal `c2BadDeal` (North holding
11 spades), decoding the text produced by `format_printall` does not
succeed — the 11-card cell spills past the 20-character column boundary, so
the East slice starts with the overflow character `4` followed by East's
void marker `-`, which is rejected as a rank character. -/
theorem format_printall_roundtrip_counterexample :
    parse_printall (format_printall c2BadDeal 1) = .error .pbn := by decide

/-- Witness for the amended C2 at the spec's concrete deal (all per-suit
holdings are at most 7 cards). -/
theorem format_printall_roundtrip_witness :
    ∃ deal', parse_printall (format_printall exPrintallDeal 1) =
        .ok (deal', 6) ∧
      ∀ (dir : Direction) (c : Card),
        c ∈ (deal'.hand dir).cards ↔ c ∈ (exPrintallDeal.hand dir).cards :=
  format_printall_roundtrip exPrintallDeal 1 (by decide) (by decide)

end BridgeEnc
